import Mathlib

/-
Verification of the sequential-CRF-for-NER repository (src/models.py).

Shallow embedding conventions:
* The decoders only add and compare scores, so their score arithmetic is
  modelled generically over a `LinearOrderedCommRing` (exact arithmetic;
  concrete runs instantiate it at ℤ so that they reduce in the kernel).
  The forward-backward quantities, which use exp/log/logsumexp, are modelled
  over ℝ; the HMM estimator's probability tables over ℚ.
* numpy 1-d/2-d arrays are modelled as total functions from index (ℕ, or ℤ for
  the word axis, whose lookup index can be the Python value -1) to the entry
  type; only in-range indices are ever read by the theorems.
* Python objects mutated in place (Indexer, the Adagrad weight wrapper, Beam)
  are modelled by explicit state passing: a call that may mutate an indexer
  returns the updated indexer.
* Collaborator code imported by models.py from nerdata.py / utils.py /
  optimizers.py is not part of src/; those definitions are modelled from the
  spec and are marked `Modelled from the spec:` in their doc comments.
-/

/-- Modelled from the spec: `Token` from nerdata.py (not in src/).  A token is
a surface word together with its part-of-speech tag ("an ordered sequence of
tokens (word, part-of-speech)"). -/
structure Token where
  word : String
  pos : String
deriving DecidableEq, Repr

/-- Modelled from the spec: `Indexer` from utils.py (not in src/), "a bijection
between strings and dense integer ids 0..T-1", built incrementally; "order of
first appearance determines id assignment". -/
structure Indexer where
  objs : List String
deriving DecidableEq, Repr

/-- First index of `s` in `l`, or `none`: the lookup underlying the
spec-modelled Indexer ("order of first appearance determines id
assignment"). -/
def firstIdx (l : List String) (s : String) : Option ℕ :=
  match l with
  | [] => none
  | x :: xs => if x == s then some 0 else (firstIdx xs s).map (· + 1)

/-- Modelled from the spec: `Indexer.index_of`, returning the id of a known
string and -1 for an unknown one (models.py line 81 tests `== -1`). -/
def Indexer.indexOf (ix : Indexer) (s : String) : Int :=
  match firstIdx ix.objs s with
  | some i => (i : Int)
  | none => -1

/-- Modelled from the spec: `Indexer.contains`. -/
def Indexer.containsStr (ix : Indexer) (s : String) : Bool :=
  ix.objs.contains s

/-- Modelled from the spec: `Indexer.add_and_get_index`: return the existing id
of `s`, or register `s` with the next dense id. -/
def Indexer.addAndGet (ix : Indexer) (s : String) : ℕ × Indexer :=
  match firstIdx ix.objs s with
  | some i => (i, ix)
  | none => (ix.objs.length, ⟨ix.objs ++ [s]⟩)

/-- Modelled from the spec: `Indexer.get_object`, the id-to-string direction of
the bijection.  All reads in the source use in-range ids. -/
def Indexer.getObject (ix : Indexer) (i : ℕ) : String :=
  ix.objs.getD i ""

/-- Prefix test on strings, written over the character lists so that
concrete evaluations reduce in the kernel (semantically `String.startsWith`). -/
def strStarts (s pre : String) : Bool := s.data.take pre.data.length == pre.data

/-- Modelled from the spec: `isB` from nerdata.py. BIO tag strings are "O",
"B-X" or "I-X". -/
def isB (tag : String) : Bool := strStarts tag "B"

/-- Modelled from the spec: `isI` from nerdata.py. -/
def isI (tag : String) : Bool := strStarts tag "I"

/-- Modelled from the spec: `isO` from nerdata.py. -/
def isO (tag : String) : Bool := tag == "O"

/-- Modelled from the spec: `get_tag_label` from nerdata.py, the entity type
`X` of a tag "B-X" / "I-X". -/
def get_tag_label (tag : String) : String := tag.drop 2

/-- Maximum of a list of scores (`np.max`); 0 on the empty list, of which
the source never takes a maximum. -/
def maxQ {α : Type} [LinearOrderedCommRing α] : List α → α
  | [] => 0
  | [x] => x
  | x :: y :: xs => max x (maxQ (y :: xs))

/-- First index of the maximum of a list, mirroring `np.argmax`: ties go to
the smallest index ("first-encountered maximum"). -/
def argmaxIdx {α : Type} [LinearOrderedCommRing α] : List α → ℕ
  | [] => 0
  | [_] => 0
  | x :: y :: xs => if maxQ (y :: xs) ≤ x then 0 else argmaxIdx (y :: xs) + 1

/-- Log-score contributed by the tail of a tag path: `pathFrom trans emis pos
prevTag rest` is the sum of transition and emission potentials of the tags
`rest` occupying positions `pos, pos+1, ...` after a tag `prevTag`. -/
def pathFrom {α : Type} [LinearOrderedCommRing α] (trans emis : ℕ → ℕ → α) :
    ℕ → ℕ → List ℕ → α
  | _, _, [] => 0
  | pos, prevTag, t :: rest =>
    trans prevTag t + emis t pos + pathFrom trans emis (pos + 1) t rest

/-- Total log-score of a complete tag path, the objective maximised by the
Viterbi decoders of models.py: initial potential of the first tag, plus
emission potentials at every position, plus transition potentials between
adjacent tags. -/
def pathScore {α : Type} [LinearOrderedCommRing α] (init : ℕ → α)
    (trans emis : ℕ → ℕ → α) : List ℕ → α
  | [] => 0
  | t :: rest => init t + emis t 0 + pathFrom trans emis 1 t rest

/-- Column `i` of the Viterbi score matrix of `HmmNerModel.decode` /
`CrfNerModel.decode` (models.py): `matrix[t][0] = init + emission`, and
`matrix[t][i] = tags_for_i[np.argmax(tags_for_i)] + emission` where
`tags_for_i[p] = matrix[p][i-1] + transition(p, t)`. -/
def vcol {α : Type} [LinearOrderedCommRing α] (T : ℕ) (init : ℕ → α)
    (trans emis : ℕ → ℕ → α) : ℕ → ℕ → α
  | 0, t => init t + emis t 0
  | i + 1, t =>
    let l := (List.range T).map (fun p => vcol T init trans emis i p + trans p t)
    l.getD (argmaxIdx l) 0 + emis t (i + 1)

/-- Backpointer `prev[t][i-1] = np.argmax(tags_for_i)` of the decoders in
models.py, for column `i ≥ 1`. -/
def vbp {α : Type} [LinearOrderedCommRing α] (T : ℕ) (init : ℕ → α)
    (trans emis : ℕ → ℕ → α) (i t : ℕ) : ℕ :=
  argmaxIdx ((List.range T).map (fun p => vcol T init trans emis (i - 1) p + trans p t))

/-- The tag path recovered by the decoders' backward pass: positions
`0 .. i`, ending in tag `t` at position `i`, following backpointers.  The
source fills `best_indices` back to front and then applies `np.flip`; this
builds the flipped (front-to-back) list directly. -/
def vpath {α : Type} [LinearOrderedCommRing α] (T : ℕ) (init : ℕ → α)
    (trans emis : ℕ → ℕ → α) : ℕ → ℕ → List ℕ
  | 0, t => [t]
  | i + 1, t =>
    vpath T init trans emis i (vbp T init trans emis (i + 1) t) ++ [t]

/-- The index sequence produced by the shared Viterbi decoding routine of
`HmmNerModel.decode` and `CrfNerModel.decode`:
`last_sate = np.argmax(matrix, 0)[-1]` followed by the backpointer trace. -/
def viterbiIdx {α : Type} [LinearOrderedCommRing α] (T : ℕ) (init : ℕ → α)
    (trans emis : ℕ → ℕ → α) (N : ℕ) : List ℕ :=
  vpath T init trans emis (N - 1)
    (argmaxIdx ((List.range T).map (fun t => vcol T init trans emis (N - 1) t)))

/-- All `T^N` tag sequences of length `N` over tags `0 .. T-1`, enumerated in
forward lexicographic order (the order of standard nested loops /
`itertools.product`). -/
def allSeqs (T : ℕ) : ℕ → List (List ℕ)
  | 0 => [[]]
  | n + 1 => (allSeqs T n).flatMap (fun s => (List.range T).map (fun t => s ++ [t]))

/-- Brute-force decoding written from the spec sentence "verify by brute-force
enumeration over all T^N paths" with "ties broken by first-encountered
maximum": the first sequence, in forward lexicographic enumeration order,
attaining the maximal path score.  This is the reference definition the claim
compares the decoders against. -/
def bruteForceIdx {α : Type} [LinearOrderedCommRing α] (T : ℕ) (init : ℕ → α)
    (trans emis : ℕ → ℕ → α) (N : ℕ) : List ℕ :=
  (allSeqs T N).getD (argmaxIdx ((allSeqs T N).map (pathScore init trans emis))) []

/-- Failure modes of the decoders in models.py, as Python raises them.  The
source contains no explicit input validation; `invalidInput` is the
explicit-rejection condition the spec's error-handling section describes, and
is produced by no code path of the embedding. -/
inductive PyErr where
  /-- numpy `ValueError: negative dimensions are not allowed`, raised by
  `np.zeros((num_tags, len(sentence_tokens) - 1))` when the token list is
  empty, since Python evaluates `len - 1` to `-1`. -/
  | negativeDimensions
  /-- numpy `ValueError` from `np.argmax` over an empty axis or empty list
  (`num_tags = 0`). -/
  | emptyArgmax
  /-- Python `IndexError` from indexing a list out of range. -/
  | indexError
  /-- Python `ValueError: not enough values to unpack`, from
  `tags, scores = zip(*list(...))` over an empty beam. -/
  | unpackError
  /-- An explicit InvalidInput rejection (never raised by the source). -/
  | invalidInput
deriving DecidableEq, Repr

/-- Decidable equality for `Except` results, so that concrete decoder runs
can be evaluated by `decide`. -/
instance {e a : Type} [DecidableEq e] [DecidableEq a] : DecidableEq (Except e a) :=
  fun x y =>
    match x, y with
    | .error u, .error v =>
      if h : u = v then isTrue (congrArg Except.error h)
      else isFalse (fun hc => h (Except.error.inj hc))
    | .error _, .ok _ => isFalse (fun hc => Except.noConfusion hc)
    | .ok _, .error _ => isFalse (fun hc => Except.noConfusion hc)
    | .ok u, .ok v =>
      if h : u = v then isTrue (congrArg Except.ok h)
      else isFalse (fun hc => h (Except.ok.inj hc))

/-- `HmmNerModel` (models.py): indexers plus the three log-probability
tables.  `numTags` stands for `len(self.init_log_probs)`; the word axis of
the emission table is indexed by `ℤ` because the Python lookup index can be
`-1` (an absent "UNK"), which numpy would treat as the last column. -/
structure HmmNerModel (α : Type) where
  tag_indexer : Indexer
  word_indexer : Indexer
  numTags : ℕ
  init_log_probs : ℕ → α
  transition_log_probs : ℕ → ℕ → α
  emission_log_probs : ℕ → ℤ → α

/-- The word-index lookup inside `HmmNerModel.decode` (models.py lines 80-82):
`word_indexer.index_of(word)`, replaced by `index_of("UNK")` when it is -1. -/
def HmmNerModel.wordLookup {α : Type} (m : HmmNerModel α) (w : String) : ℤ :=
  let wi := m.word_indexer.indexOf w
  if wi = -1 then m.word_indexer.indexOf "UNK" else wi

/-- The emission score read by `HmmNerModel.decode` for tag `t` at position
`i`: `emission_log_probs[t][word_index]`.  This is also the value of
`ProbabilisticSequenceScorer.score_emission`, whose `contains` test performs
the same fallback. -/
def HmmNerModel.emisAt {α : Type} (m : HmmNerModel α) (toks : List Token)
    (t i : ℕ) : α :=
  m.emission_log_probs t (m.wordLookup (toks.getD i ⟨"", ""⟩).word)

/-- `HmmNerModel.decode` (models.py lines 67-111), producing the predicted tag
index sequence `best_indices`.  The guards reflect where the source raises:
with no tokens, `np.zeros((num_tags, -1))` raises ValueError before anything
else; with zero tags, `np.argmax` over the empty tag axis raises. -/
def HmmNerModel.decodeIdx {α : Type} [LinearOrderedCommRing α]
    (m : HmmNerModel α) (toks : List Token) : Except PyErr (List ℕ) :=
  if toks.length = 0 then .error .negativeDimensions
  else if m.numTags = 0 then .error .emptyArgmax
  else .ok (viterbiIdx m.numTags m.init_log_probs m.transition_log_probs
    (m.emisAt toks) toks.length)

/-- `HmmNerModel.decode`: `pred_tags`, the `best_indices` converted to tag
strings through `tag_indexer.get_object`.  The final
`chunks_from_bio_tag_seq` / `LabeledSentence` wrapping is the BIO-chunk
collaborator the spec places out of scope. -/
def HmmNerModel.decode {α : Type} [LinearOrderedCommRing α]
    (m : HmmNerModel α) (toks : List Token) : Except PyErr (List String) :=
  (m.decodeIdx toks).map (fun s => s.map m.tag_indexer.getObject)

/-- `FeatureBasedSequenceScorer.score_init` (models.py lines 201-205): hard
penalty -1000 whenever the tag is an I- tag. -/
def fbs_score_init {α : Type} [LinearOrderedCommRing α] (tag_indexer : Indexer)
    (tag_idx : ℕ) : α :=
  if isI (tag_indexer.getObject tag_idx) then -1000 else 0

/-- The BIO-illegality test of `FeatureBasedSequenceScorer.score_transition`
(models.py lines 210-212): O→I-X, or B-X→I-Y with Y ≠ X, or I-X→I-Y with
Y ≠ X. -/
def bioIllegal (prev_tag curr_tag : String) : Bool :=
  (isO prev_tag && isI curr_tag)
    || (isB prev_tag && isI curr_tag && get_tag_label prev_tag != get_tag_label curr_tag)
    || (isI prev_tag && isI curr_tag && get_tag_label prev_tag != get_tag_label curr_tag)

/-- `FeatureBasedSequenceScorer.score_transition` (models.py lines 207-215):
hard penalty -1000 on the BIO-illegal pairs. -/
def fbs_score_transition {α : Type} [LinearOrderedCommRing α]
    (tag_indexer : Indexer) (prev_tag_idx curr_tag_idx : ℕ) : α :=
  if bioIllegal (tag_indexer.getObject prev_tag_idx) (tag_indexer.getObject curr_tag_idx)
  then -1000
  else 0

/-- Modelled from the spec: the weight wrapper's `score` method
(optimizers.py, not in src/): "score of a tag at a position = sum of weights
for active feature ids at that (position, tag) pair". -/
def weightsScore {α : Type} [LinearOrderedCommRing α] (w : ℕ → α)
    (feats : List ℕ) : α :=
  (feats.map w).sum

/-- `FeatureBasedSequenceScorer.score_emission` (models.py lines 217-219):
`feature_weights.score(feat_cache[word_posn][tag_idx])`. -/
def fbs_score_emission {α : Type} [LinearOrderedCommRing α]
    (feature_weights : ℕ → α) (feat_cache : List (List (List ℕ)))
    (tag_idx word_posn : ℕ) : α :=
  weightsScore feature_weights ((feat_cache.getD word_posn []).getD tag_idx [])

/-- ASCII apostrophe character, used by the Python `repr` of the word-shape
list. -/
def pyQuote : Char := Char.ofNat 39

/-- Python `repr` of a boolean: "True" / "False". -/
def pyReprBool (b : Bool) : String := if b then "True" else "False"

/-- Python `repr` of the word-shape value, a list of one-character strings,
e.g. `repr(['x', 'X'])` is "['x', 'X']". -/
def pyReprCharList (cs : List Char) : String :=
  "[" ++ String.intercalate ", "
    (cs.map (fun c => String.singleton pyQuote ++ String.singleton c ++ String.singleton pyQuote))
  ++ "]"

/-- One character of the word shape computed in `extract_emission_features`:
upper ↦ 'X', lower ↦ 'x', digit ↦ '0', other ↦ '?'.  (The Python predicates
are used on ASCII input here.) -/
def shapeChar (c : Char) : Char :=
  if c.isUpper then 'X' else if c.isLower then 'x' else if c.isDigit then '0' else '?'

/-- The `active_word` of `extract_emission_features` at signed offset `off`
from `word_index`: "<s>" before the sentence, "</s>" past its end. -/
def activeWordAt (toks : List Token) (word_index : ℕ) (off : ℤ) : String :=
  let j : ℤ := (word_index : ℤ) + off
  if j < 0 then "<s>"
  else if (toks.length : ℤ) ≤ j then "</s>"
  else (toks.getD j.toNat ⟨"", ""⟩).word

/-- The `active_pos` of `extract_emission_features` at signed offset `off`. -/
def activePosAt (toks : List Token) (word_index : ℕ) (off : ℤ) : String :=
  let j : ℤ := (word_index : ℤ) + off
  if j < 0 then "<S>"
  else if (toks.length : ℤ) ≤ j then "</S>"
  else (toks.getD j.toNat ⟨"", ""⟩).pos

/-- The ordered feature strings generated by `extract_emission_features`
(models.py lines 363-414): word/POS windows at offsets -1..1, character
n-grams of sizes 1..3, capitalisation, and word shape.  String slicing
mirrors Python (`take`/`drop` clamp exactly like slices). -/
def emissionFeatureStrings (toks : List Token) (word_index : ℕ) (tag : String) :
    List String :=
  let curr_word := (toks.getD word_index ⟨"", ""⟩).word
  (([-1, 0, 1] : List ℤ).flatMap (fun off =>
    [tag ++ ":Word" ++ toString off ++ "=" ++ activeWordAt toks word_index off,
     tag ++ ":Pos" ++ toString off ++ "=" ++ activePosAt toks word_index off]))
  ++ (([1, 2, 3] : List ℕ).flatMap (fun n =>
    [tag ++ ":StartNgram=" ++ curr_word.take n,
     tag ++ ":EndNgram=" ++ curr_word.drop (curr_word.length - n)]))
  ++ [tag ++ ":IsCap=" ++ pyReprBool (curr_word.data.getD 0 (Char.ofNat 32)).isUpper]
  ++ [tag ++ ":WordShape=" ++ pyReprCharList (curr_word.data.map shapeChar)]

/-- Modelled from the spec: `maybe_add_feature` from utils.py (not in src/):
append the feature's id, "optionally registering new feature strings into the
vocabulary when invoked in training mode and silently skipping unseen
features in inference mode". -/
def maybe_add_feature (feats : List ℕ) (ix : Indexer) (add : Bool) (feat : String) :
    List ℕ × Indexer :=
  if add then
    let r := ix.addAndGet feat
    (feats ++ [r.1], r.2)
  else
    match firstIdx ix.objs feat with
    | some i => (feats ++ [i], ix)
    | none => (feats, ix)

/-- `extract_emission_features` (models.py lines 363-414): fold
`maybe_add_feature` over the generated feature strings, returning the
feature-id list and the (possibly grown, when `add_to_indexer`) feature
indexer. -/
def extract_emission_features (toks : List Token) (word_index : ℕ) (tag : String)
    (feature_indexer : Indexer) (add_to_indexer : Bool) : List ℕ × Indexer :=
  (emissionFeatureStrings toks word_index tag).foldl
    (fun acc f => maybe_add_feature acc.1 acc.2 add_to_indexer f)
    ([], feature_indexer)

/-- `CrfNerModel` (models.py lines 222-226).  The weight vector is the
Adagrad wrapper's dense weights, read through its `score` method. -/
structure CrfNerModel (α : Type) where
  tag_indexer : Indexer
  feature_indexer : Indexer
  feature_weights : ℕ → α

/-- The per-sentence feature cache built at the top of `CrfNerModel.decode`
and `CrfNerModel.decode_beam` (models.py lines 235-238 / 292-295):
`feature_cache[word_idx][tag_idx] = extract_emission_features(...,
add_to_indexer=False)`, with the feature indexer threaded through every
extraction call.  `cacheRow` is the inner (per-tag) loop for one word. -/
def cacheRow {α : Type} (m : CrfNerModel α) (toks : List Token)
    (word_idx : ℕ) (ix : Indexer) : List (List ℕ) × Indexer :=
  (List.range m.tag_indexer.objs.length).foldl
    (fun racc tag_idx =>
      let r := extract_emission_features toks word_idx
        (m.tag_indexer.getObject tag_idx) racc.2 false
      (racc.1 ++ [r.1], r.2))
    (([] : List (List ℕ)), ix)

/-- The outer (per-word) loop of the cache construction. -/
def buildFeatureCache {α : Type} (m : CrfNerModel α) (toks : List Token) :
    List (List (List ℕ)) × Indexer :=
  (List.range toks.length).foldl
    (fun acc word_idx =>
      let row := cacheRow m toks word_idx acc.2
      (acc.1 ++ [row.1], row.2))
    (([] : List (List (List ℕ))), m.feature_indexer)

/-- `CrfNerModel.decode` (models.py lines 228-275), index-sequence part, in
state-passing form: the second component is the model state after the call
(the feature indexer threaded through feature extraction; the tag indexer and
weight vector are only read).  Guards as in `HmmNerModel.decodeIdx`. -/
def CrfNerModel.decodeIdx {α : Type} [LinearOrderedCommRing α]
    (m : CrfNerModel α) (toks : List Token) :
    Except PyErr (List ℕ) × CrfNerModel α :=
  let cache := buildFeatureCache m toks
  let m' := { m with feature_indexer := cache.2 }
  let T := m.tag_indexer.objs.length
  if toks.length = 0 then (.error .negativeDimensions, m')
  else if T = 0 then (.error .emptyArgmax, m')
  else
    (.ok (viterbiIdx T (fbs_score_init m.tag_indexer)
      (fbs_score_transition m.tag_indexer)
      (fbs_score_emission m.feature_weights cache.1) toks.length), m')

/-- `CrfNerModel.decode`: `pred_tags` as strings, with the post-call model
state. -/
def CrfNerModel.decode {α : Type} [LinearOrderedCommRing α]
    (m : CrfNerModel α) (toks : List Token) :
    Except PyErr (List String) × CrfNerModel α :=
  let r := m.decodeIdx toks
  (r.1.map (fun s => s.map m.tag_indexer.getObject), r.2)

/-- Modelled from the spec: `Beam` from utils.py (not in src/): a "bounded
collection of top-k partial hypotheses retained during approximate search".
The element list is kept sorted by descending score, stably for equal scores
("ties broken by insertion order / first-seen"). -/
structure Beam (α : Type) where
  size : ℕ
  elts : List (List ℕ × α)

/-- Stable insertion into the descending-sorted hypothesis list: a new
element goes after every existing element of greater-or-equal score. -/
def beamInsert {α : Type} [LinearOrderedCommRing α] :
    List (List ℕ × α) → List ℕ → α → List (List ℕ × α)
  | [], e, s => [(e, s)]
  | x :: xs, e, s => if x.2 < s then (e, s) :: x :: xs else x :: beamInsert xs e s

/-- Modelled from the spec: `Beam.add`: insert, keeping "only the k best". -/
def Beam.add {α : Type} [LinearOrderedCommRing α] (b : Beam α) (e : List ℕ)
    (s : α) : Beam α :=
  ⟨b.size, (beamInsert b.elts e s).take b.size⟩

/-- Modelled from the spec: `Beam.head`, "the single highest-scoring
surviving hypothesis"; IndexError on an empty beam. -/
def Beam.headE {α : Type} (b : Beam α) : Except PyErr (List ℕ) :=
  match b.elts with
  | [] => .error .indexError
  | e :: _ => .ok e.1

/-- The beam initialisation of `CrfNerModel.decode_beam` (models.py lines
298-300): every single-tag hypothesis `[i]`, scored
`score_init(i) + score_emission(i, 0)`, added to a fresh beam of width 9. -/
def crfInitBeam {α : Type} [LinearOrderedCommRing α] (tag_indexer : Indexer)
    (weights : ℕ → α) (cache : List (List (List ℕ))) : Beam α :=
  (List.range tag_indexer.objs.length).foldl
    (fun b i => b.add [i]
      (fbs_score_init tag_indexer i + fbs_score_emission weights cache i 0))
    ⟨9, []⟩

/-- One expansion step of `decode_beam` (models.py lines 302-308) for
position `token`: snapshot `tags, scores` from the current beam, then for
`i in range(beam_size)` and every next tag, add the extension to `next_beam`.
Unpacking an empty beam raises ValueError; reading `tags[i]` past the
snapshot length raises IndexError (the loop bound is the constant 9, not the
snapshot size).  The state pair is (current_beam, next_beam); the source's
`current_beam = next_beam` with no reset makes both names refer to the same
object afterwards, so the step returns the same beam in both components. -/
def beamStep {α : Type} [LinearOrderedCommRing α] (tag_indexer : Indexer)
    (weights : ℕ → α) (cache : List (List (List ℕ))) (st : Beam α × Beam α)
    (token : ℕ) : Except PyErr (Beam α × Beam α) :=
  let snapshot := st.1.elts
  if snapshot.length = 0 then .error .unpackError
  else if snapshot.length < 9 then .error .indexError
  else
    let nxt := (List.range 9).foldl (fun b i =>
      let hyp := snapshot.getD i ([], 0)
      (List.range tag_indexer.objs.length).foldl (fun b cur =>
        b.add (hyp.1 ++ [cur])
          (hyp.2 + fbs_score_transition tag_indexer (hyp.1.getLastD 0) cur
            + fbs_score_emission weights cache cur token)) b) st.2
    .ok (nxt, nxt)

/-- `CrfNerModel.decode_beam` (models.py lines 278-314) in state-passing
form; the second component is the post-call model state.  On an empty token
sequence the source raises IndexError (`feat_cache[0]` during beam
initialisation, or `elts[0]` in `head()` when there are no tags). -/
def CrfNerModel.decode_beam {α : Type} [LinearOrderedCommRing α]
    (m : CrfNerModel α) (toks : List Token) :
    Except PyErr (List String) × CrfNerModel α :=
  let cache := buildFeatureCache m toks
  let m' := { m with feature_indexer := cache.2 }
  if toks.length = 0 then (.error .indexError, m')
  else
    let b0 := crfInitBeam m.tag_indexer m.feature_weights cache.1
    match (List.range' 1 (toks.length - 1)).foldlM
        (beamStep m.tag_indexer m.feature_weights cache.1) (b0, ⟨9, []⟩) with
    | .error e => (.error e, m')
    | .ok st =>
      match st.1.headE with
      | .error e => (.error e, m')
      | .ok tags => (.ok (tags.map m.tag_indexer.getObject), m')

/-- `get_word_index` (models.py lines 173-185): a word whose counter value is
below the source's 1.5 threshold is indexed as "UNK", otherwise under its own
string (registering it if needed).  Counter values are sums of `+= 1.0`
increments, hence exact naturals; for a natural count `c` the float test
`c < 1.5` is exactly `2 * c < 3`. -/
def get_word_index (word_indexer : Indexer) (word_counter : String → ℕ)
    (word : String) : ℕ × Indexer :=
  if 2 * word_counter word < 3 then word_indexer.addAndGet "UNK"
  else word_indexer.addAndGet word

/-- A training sentence for the HMM estimator: the (word, BIO tag) pairs of a
`LabeledSentence` (token part-of-speech plays no role in `train_hmm_model`). -/
abbrev HmmSentence := List (String × String)

/-- The corpus word counter built by `train_hmm_model` (models.py lines
127-130): occurrences of each word. -/
def wordCount (corpus : List HmmSentence) (w : String) : ℕ :=
  (corpus.flatMap (fun sent => sent.map Prod.fst)).count w

/-- The indexing pass of `train_hmm_model` (models.py lines 124-136): per
sentence, every token goes through `get_word_index` (the word indexer starts
holding "UNK"), then every tag is registered.  Returns (tag indexer,
word indexer). -/
def hmmIndexers (corpus : List HmmSentence) : Indexer × Indexer :=
  corpus.foldl
    (fun acc sent =>
      let wix := sent.foldl
        (fun wix tok => (get_word_index wix (wordCount corpus) tok.1).2) acc.2
      let tix := sent.foldl (fun tix tok => (tix.addAndGet tok.2).2) acc.1
      (tix, wix))
    (⟨[]⟩, ⟨["UNK"]⟩)

/-- The three count tables of `train_hmm_model`, each cell starting at the
additive-smoothing pseudo-count 0.001 (models.py lines 139-141). -/
structure HmmCounts where
  init : ℕ → ℚ
  trans : ℕ → ℕ → ℚ
  emis : ℕ → ℕ → ℚ

/-- Add 1 to one cell of a 1-d count table. -/
def bump1 (f : ℕ → ℚ) (a : ℕ) : ℕ → ℚ :=
  fun x => if x = a then f x + 1 else f x

/-- Add 1 to one cell of a 2-d count table. -/
def bump2 (f : ℕ → ℕ → ℚ) (a b : ℕ) : ℕ → ℕ → ℚ :=
  fun x y => if x = a ∧ y = b then f x y + 1 else f x y

/-- The counting pass of `train_hmm_model` (models.py lines 142-151) over one
sentence: at position `i`, bump `emission[tag_idx][word_idx]`, and bump
`init[tag_idx]` at position 0 or `transition[prev_tag_idx][tag_idx]`
otherwise.  The indexers are the completed ones from the indexing pass (the
source calls `add_and_get_index` again, but every tag and word is already
present, so the lookup is pure). -/
def countSentence (tix wix : Indexer) (cnt : String → ℕ) (sent : HmmSentence)
    (c : HmmCounts) : HmmCounts :=
  (List.range sent.length).foldl
    (fun c i =>
      let tok := sent.getD i ("", "")
      let tag_idx := (tix.addAndGet tok.2).1
      let word_idx := (get_word_index wix cnt tok.1).1
      let c1 : HmmCounts := { c with emis := bump2 c.emis tag_idx word_idx }
      if i = 0 then { c1 with init := bump1 c1.init tag_idx }
      else
        let prev_idx := (tix.addAndGet (sent.getD (i - 1) ("", "")).2).1
        { c1 with trans := bump2 c1.trans prev_idx tag_idx })
    c

/-- The full count tables of `train_hmm_model` for a corpus. -/
def hmmCounts (corpus : List HmmSentence) : HmmCounts :=
  let ixs := hmmIndexers corpus
  corpus.foldl (fun c sent => countSentence ixs.1 ixs.2 (wordCount corpus) sent c)
    { init := fun _ => 1 / 1000, trans := fun _ _ => 1 / 1000,
      emis := fun _ _ => 1 / 1000 }

/-- Row-normalised transition probability `transition_counts[r][c] /
transition_counts[r].sum()` (models.py line 159), in exact arithmetic.  The
normaliser sums the row over the `len(tag_indexer)` columns of the array. -/
def hmmTransProb (corpus : List HmmSentence) (r c : ℕ) : ℚ :=
  let T := (hmmIndexers corpus).1.objs.length
  (hmmCounts corpus).trans r c / ∑ j ∈ Finset.range T, (hmmCounts corpus).trans r j

/-- Row-normalised emission probability (models.py line 161), the row summed
over the `len(word_indexer)` columns. -/
def hmmEmisProb (corpus : List HmmSentence) (r v : ℕ) : ℚ :=
  let V := (hmmIndexers corpus).2.objs.length
  (hmmCounts corpus).emis r v / ∑ j ∈ Finset.range V, (hmmCounts corpus).emis r j

/-- The stored transition table of the trained model: `np.log` of the
normalised row (models.py line 159), as a real number. -/
noncomputable def hmmTransLog (corpus : List HmmSentence) (r c : ℕ) : ℝ :=
  Real.log ((hmmTransProb corpus r c : ℚ) : ℝ)

/-- The stored emission table of the trained model: `np.log` of the
normalised row (models.py line 161). -/
noncomputable def hmmEmisLog (corpus : List HmmSentence) (r v : ℕ) : ℝ :=
  Real.log ((hmmEmisProb corpus r v : ℚ) : ℝ)

/-- Stable log-sum-exp over `T` log-domain values, the
`scipy.special.logsumexp` of models.py in exact real arithmetic. -/
noncomputable def lse (T : ℕ) (f : ℕ → ℝ) : ℝ :=
  Real.log (∑ t ∈ Finset.range T, Real.exp (f t))

/-- The forward values of `compute_gradient` (models.py lines 444-451):
`alpha[t][0] = score_emission(t, 0)`;
`alpha[t][i] = logsumexp over prev of (alpha[prev][i-1] + transition(prev, t)
+ emission(t, i))`.  Arguments: position then tag. -/
noncomputable def alphaM (T : ℕ) (trans emis : ℕ → ℕ → ℝ) : ℕ → ℕ → ℝ
  | 0, t => emis t 0
  | i + 1, t =>
    lse T (fun p => alphaM T trans emis i p + trans p t + emis t (i + 1))

/-- Fuel-indexed backward recursion: `betaAux fuel` computes the backward
value at a position `fuel` steps before the last. -/
noncomputable def betaAux (T : ℕ) (trans emis : ℕ → ℕ → ℝ) : ℕ → ℕ → ℕ → ℝ
  | 0, _, _ => 0
  | fuel + 1, i, t =>
    lse T (fun c => betaAux T trans emis fuel (i + 1) c + trans t c
      + emis c (i + 1))

/-- The backward values of `compute_gradient` (models.py lines 446, 453-455):
`beta[t][N-1] = 0`;
`beta[t][i] = logsumexp over next of (beta[next][i+1] + transition(t, next)
+ emission(next, i+1))`.  Positions at or past `N-1` carry the boundary 0. -/
noncomputable def betaM (T N : ℕ) (trans emis : ℕ → ℕ → ℝ) (i t : ℕ) : ℝ :=
  betaAux T trans emis (N - 1 - i) i t

/-- The per-position normaliser of `compute_gradient` (models.py line 458):
`denominators = logsumexp(np.add(alpha_matrix, beta_matrix), 0)`. -/
noncomputable def zNorm (T N : ℕ) (trans emis : ℕ → ℕ → ℝ) (i : ℕ) : ℝ :=
  lse T (fun t => alphaM T trans emis i t + betaM T N trans emis i t)

/-- The marginal probabilities of `compute_gradient` (models.py line 465):
`marginals[t][i] = np.exp(alpha[t][i] + beta[t][i] - denominators[i])`. -/
noncomputable def marginalP (T N : ℕ) (trans emis : ℕ → ℕ → ℝ) (t i : ℕ) : ℝ :=
  Real.exp (alphaM T trans emis i t + betaM T N trans emis i t
    - zNorm T N trans emis i)

/-- The `features` dict accumulation of `compute_gradient` (models.py lines
460-471): for every position, every tag and every cached feature id, add that
(tag, position) marginal.  The Python dict is modelled as a total map
defaulting to 0; both branches of the `in` test then read
`d[f] := d[f] + marginal`. -/
noncomputable def expectedCounts (T N : ℕ) (marg : ℕ → ℕ → ℝ)
    (fc : ℕ → ℕ → List ℕ) : ℕ → ℝ :=
  (List.range N).foldl
    (fun d i => (List.range T).foldl
      (fun d t => (fc i t).foldl
        (fun d f => Function.update d f (d f + marg t i)) d) d)
    (fun _ => 0)

/-- The gold tag index at position `i`:
`tag_indexer.index_of(sentence.get_bio_tags()[word_idx])` (models.py line
461).  The theorems assume the gold tag occurs in the indexer, so the Python
value is non-negative and `toNat` is exact. -/
def goldTagIdx (tix : Indexer) (tags : List String) (i : ℕ) : ℕ :=
  (tix.indexOf (tags.getD i "")).toNat

/-- `full_feat` (models.py lines 434, 460-462): the concatenation, across
positions, of the cached feature-id list of the gold tag. -/
def goldFeatList (N : ℕ) (goldIdx : ℕ → ℕ) (fc : ℕ → ℕ → List ℕ) : List ℕ :=
  (List.range N).foldl (fun l i => l ++ fc i (goldIdx i)) []

/-- The gradient Counter returned by `compute_gradient` (models.py lines
476-480): `Counter(full_feat).subtract(Counter(features))`, viewed as the
total map Python's `Counter.__getitem__` denotes (absent keys read 0). -/
noncomputable def crfGradient (tix : Indexer) (tags : List String)
    (trans emis : ℕ → ℕ → ℝ) (fc : ℕ → ℕ → List ℕ) : ℕ → ℝ :=
  fun f =>
    ((goldFeatList tags.length (goldTagIdx tix tags) fc).count f : ℝ)
      - expectedCounts tix.objs.length tags.length
          (marginalP tix.objs.length tags.length trans emis) fc f

/-- The first return value of `compute_gradient` (models.py line 474): the
logsumexp over positions of the gold tag's emission score (the training
objective proxy, returned "only for printing"). -/
noncomputable def goldProbs (tix : Indexer) (tags : List String)
    (emis : ℕ → ℕ → ℝ) : ℝ :=
  lse tags.length (fun i => emis (goldTagIdx tix tags i) i)

/-- `compute_gradient` (models.py lines 417-480): the pair (objective proxy,
gradient Counter), for the gold tag strings of a labelled sentence, a scorer
given by its transition/emission log-potential functions, and the scorer's
feature cache. -/
noncomputable def compute_gradient (tix : Indexer) (tags : List String)
    (trans emis : ℕ → ℕ → ℝ) (fc : ℕ → ℕ → List ℕ) : ℝ × (ℕ → ℝ) :=
  (goldProbs tix tags emis, crfGradient tix tags trans emis fc)

/-- Concrete two-tag HMM whose transition table produces a score tie between
the paths [0, 1] and [1, 0] on a two-token sentence. -/
def hmmTieModel : HmmNerModel ℤ :=
  { tag_indexer := ⟨["A", "B"]⟩
    word_indexer := ⟨["UNK", "u", "v"]⟩
    numTags := 2
    init_log_probs := fun _ => 0
    transition_log_probs := fun p c => if p = c then 0 else 1
    emission_log_probs := fun _ _ => 0 }

/-- The two-token sentence for `hmmTieModel`. -/
def tieToks : List Token := [⟨"u", "X"⟩, ⟨"v", "X"⟩]

/-- Concrete CRF whose single indexed feature gives the I-A tag a +2000
emission score on the word "a", overwhelming the -1000 hard penalty. -/
def crfPenModel : CrfNerModel ℤ :=
  { tag_indexer := ⟨["O", "I-A"]⟩
    feature_indexer := ⟨["I-A:Word0=a"]⟩
    feature_weights := fun f => if f = 0 then 2000 else 0 }

/-- The one-token sentence for `crfPenModel`. -/
def penToks : List Token := [⟨"a", "N"⟩]

/-- Concrete nine-tag CRF with no indexed features and zero weights (all
emission scores 0). -/
def crfNineTagModel : CrfNerModel ℤ :=
  { tag_indexer := ⟨["O", "B-A", "I-A", "B-B", "I-B", "B-C", "I-C", "B-D", "I-D"]⟩
    feature_indexer := ⟨[]⟩
    feature_weights := fun _ => 0 }

/-- The three-token sentence for `crfNineTagModel`. -/
def nineToks : List Token := [⟨"a", "N"⟩, ⟨"b", "N"⟩, ⟨"c", "N"⟩]

/-- Concrete two-tag CRF (tag set smaller than the beam width 9). -/
def crfTwoTagModel : CrfNerModel ℤ :=
  { tag_indexer := ⟨["O", "B-A"]⟩
    feature_indexer := ⟨[]⟩
    feature_weights := fun _ => 0 }

/-- The two-token sentence for `crfTwoTagModel`. -/
def twoToks : List Token := [⟨"a", "N"⟩, ⟨"b", "N"⟩]

/-- A chain `prev :: s` of tags contains at least one transition scored with
the hard penalty -1000. -/
def hasPenaltyLink {α : Type} [LinearOrderedCommRing α] (trans : ℕ → ℕ → α) :
    ℕ → List ℕ → Prop
  | _, [] => False
  | p, t :: rest => trans p t = -1000 ∨ hasPenaltyLink trans t rest

/-- All cells of an HMM count-table triple are at least the smoothing
pseudo-count 0.001. -/
def goodCounts (c : HmmCounts) : Prop :=
  (∀ r, 1 / 1000 ≤ c.init r) ∧ (∀ r k, 1 / 1000 ≤ c.trans r k) ∧
    (∀ r v, 1 / 1000 ≤ c.emis r v)

theorem maxQ_nil {α : Type} [LinearOrderedCommRing α] : maxQ ([] : List α) = 0 := rfl

theorem maxQ_singleton {α : Type} [LinearOrderedCommRing α] (x : α) :
    maxQ [x] = x := rfl

theorem maxQ_cons_cons {α : Type} [LinearOrderedCommRing α] (x y : α) (xs : List α) :
    maxQ (x :: y :: xs) = max x (maxQ (y :: xs)) := rfl

theorem le_maxQ {α : Type} [LinearOrderedCommRing α] {xs : List α} {x : α}
    (hx : x ∈ xs) : x ≤ maxQ xs := by
  induction xs with
  | nil => cases hx
  | cons a l ih =>
    cases l with
    | nil =>
      rcases List.mem_cons.mp hx with h | h
      · simp [maxQ_singleton, h]
      · cases h
    | cons b m =>
      rcases List.mem_cons.mp hx with h | h
      · rw [maxQ_cons_cons, h]; exact le_max_left _ _
      · rw [maxQ_cons_cons]
        exact le_trans (ih h) (le_max_right _ _)

theorem maxQ_mem {α : Type} [LinearOrderedCommRing α] {xs : List α} (h : xs ≠ []) :
    maxQ xs ∈ xs := by
  induction xs with
  | nil => exact absurd rfl h
  | cons a l ih =>
    cases l with
    | nil => simp [maxQ_singleton]
    | cons b m =>
      rw [maxQ_cons_cons]
      rcases max_cases a (maxQ (b :: m)) with ⟨heq, _⟩ | ⟨heq, _⟩
      · rw [heq]; exact List.mem_cons_self _ _
      · rw [heq]; exact List.mem_cons_of_mem _ (ih (by simp))

theorem argmaxIdx_lt_length {α : Type} [LinearOrderedCommRing α] {xs : List α}
    (h : xs ≠ []) : argmaxIdx xs < xs.length := by
  induction xs with
  | nil => exact absurd rfl h
  | cons a l ih =>
    cases l with
    | nil => simp [argmaxIdx]
    | cons b m =>
      rw [argmaxIdx]
      split
      · simp
      · have := ih (by simp)
        simpa [Nat.succ_lt_succ_iff] using this

theorem getD_argmaxIdx {α : Type} [LinearOrderedCommRing α] {xs : List α}
    (h : xs ≠ []) (d : α) : xs.getD (argmaxIdx xs) d = maxQ xs := by
  induction xs with
  | nil => exact absurd rfl h
  | cons a l ih =>
    cases l with
    | nil => simp [argmaxIdx, maxQ_singleton]
    | cons b m =>
      rw [argmaxIdx]
      split
      · rename_i hle
        have hle' : maxQ (b :: m) ≤ a := hle
        rw [maxQ_cons_cons, max_eq_left hle']
        rfl
      · rename_i hlt
        push_neg at hlt
        have hle2 : a ≤ maxQ (b :: m) := le_of_lt hlt
        have hrec := ih (by simp)
        rw [maxQ_cons_cons, max_eq_right hle2, List.getD_cons_succ]
        exact hrec

theorem getD_range_map {α : Type} [LinearOrderedCommRing α] (f : ℕ → α)
    (T j : ℕ) (hj : j < T) (d : α) : ((List.range T).map f).getD j d = f j := by
  have h1 : ((List.range T).map f)[j]? = some (f j) := by
    rw [List.getElem?_map, List.getElem?_range hj]
    rfl
  simp [List.getD, h1]

theorem getLastD_snoc (s : List ℕ) (t : ℕ) : ∀ d, (s ++ [t]).getLastD d = t := by
  induction s with
  | nil => intro d; rfl
  | cons a l ih =>
    intro d
    rw [List.cons_append, List.getLastD_cons]
    exact ih a

theorem getLastD_mem {s : List ℕ} (h : s ≠ []) (d : ℕ) : s.getLastD d ∈ s := by
  induction s with
  | nil => exact absurd rfl h
  | cons a l ih =>
    cases l with
    | nil => simp
    | cons b m =>
      rw [List.getLastD_cons]
      exact List.mem_cons_of_mem _ (ih (by simp))

theorem getLastD_irrel {s : List ℕ} (h : s ≠ []) (d d' : ℕ) :
    s.getLastD d = s.getLastD d' := by
  cases s with
  | nil => exact absurd rfl h
  | cons a l => rw [List.getLastD_cons, List.getLastD_cons]

theorem dropLast_append_getLastD {s : List ℕ} (h : s ≠ []) :
    s.dropLast ++ [s.getLastD 0] = s := by
  induction s with
  | nil => exact absurd rfl h
  | cons a l ih =>
    cases l with
    | nil => rfl
    | cons b m =>
      have h2 : (b :: m : List ℕ) ≠ [] := by simp
      rw [List.getLastD_cons, getLastD_irrel h2 a 0]
      show a :: ((b :: m).dropLast ++ [(b :: m).getLastD 0]) = a :: b :: m
      rw [ih h2]

theorem pathFrom_snoc {α : Type} [LinearOrderedCommRing α]
    (trans emis : ℕ → ℕ → α) (s : List ℕ) :
    ∀ (pos p t : ℕ),
      pathFrom trans emis pos p (s ++ [t]) =
        pathFrom trans emis pos p s + trans (s.getLastD p) t + emis t (pos + s.length) := by
  induction s with
  | nil =>
    intro pos p t
    simp [pathFrom]
  | cons x xs ih =>
    intro pos p t
    rw [List.cons_append, pathFrom, pathFrom, ih (pos + 1) x t, List.getLastD_cons,
      List.length_cons]
    ring_nf

theorem pathScore_snoc {α : Type} [LinearOrderedCommRing α] (init : ℕ → α)
    (trans emis : ℕ → ℕ → α) {s : List ℕ} (h : s ≠ []) (t : ℕ) :
    pathScore init trans emis (s ++ [t]) =
      pathScore init trans emis s + trans (s.getLastD 0) t + emis t s.length := by
  cases s with
  | nil => exact absurd rfl h
  | cons x xs =>
    rw [List.cons_append, pathScore, pathScore, pathFrom_snoc, List.getLastD_cons,
      List.length_cons]
    ring_nf

theorem vpath_spec {α : Type} [LinearOrderedCommRing α] (T : ℕ) (init : ℕ → α)
    (trans emis : ℕ → ℕ → α) (hT : 0 < T) :
    ∀ i t, t < T →
      (vpath T init trans emis i t).length = i + 1 ∧
      (vpath T init trans emis i t).getLastD 0 = t ∧
      (∀ x ∈ vpath T init trans emis i t, x < T) ∧
      pathScore init trans emis (vpath T init trans emis i t) =
        vcol T init trans emis i t := by
  intro i
  induction i with
  | zero =>
    intro t ht
    refine ⟨rfl, rfl, ?_, ?_⟩
    · intro x hx
      rcases List.mem_singleton.mp hx with rfl
      exact ht
    · show init t + emis t 0 + 0 = vcol T init trans emis 0 t
      rw [vcol]
      ring
  | succ i ih =>
    intro t ht
    set l := (List.range T).map (fun p => vcol T init trans emis i p + trans p t) with hl
    have hlen : l.length = T := by simp [hl]
    have hlne : l ≠ [] := by
      intro hcon
      rw [hcon] at hlen
      simp at hlen
      omega
    have hp : vbp T init trans emis (i + 1) t < T := by
      have := argmaxIdx_lt_length hlne
      rw [hlen] at this
      simpa [vbp, hl] using this
    obtain ⟨ihlen, ihlast, ihmem, ihscore⟩ := ih (vbp T init trans emis (i + 1) t) hp
    rw [vpath]
    refine ⟨?_, ?_, ?_, ?_⟩
    · rw [List.length_append, ihlen]
      rfl
    · exact getLastD_snoc _ _ _
    · intro x hx
      rcases List.mem_append.mp hx with h | h
      · exact ihmem x h
      · rcases List.mem_singleton.mp h with rfl
        exact ht
    · have hne : vpath T init trans emis i (vbp T init trans emis (i + 1) t) ≠ [] := by
        intro hcon
        rw [hcon] at ihlen
        simp at ihlen
      rw [pathScore_snoc init trans emis hne, ihscore, ihlast, ihlen, vcol]
      have hval : l.getD (argmaxIdx l) 0 =
          vcol T init trans emis i (vbp T init trans emis (i + 1) t) +
            trans (vbp T init trans emis (i + 1) t) t := by
        have : vbp T init trans emis (i + 1) t = argmaxIdx l := by
          simp [vbp, hl]
        rw [this]
        exact getD_range_map _ T (argmaxIdx l) (by rw [← hlen]; exact argmaxIdx_lt_length hlne) 0
      rw [hval]

theorem pathScore_le_vcol {α : Type} [LinearOrderedCommRing α] (T : ℕ)
    (init : ℕ → α) (trans emis : ℕ → ℕ → α) :
    ∀ i (s : List ℕ) t, t < T → s.length = i + 1 → s.getLastD 0 = t →
      (∀ x ∈ s, x < T) →
      pathScore init trans emis s ≤ vcol T init trans emis i t := by
  intro i
  induction i with
  | zero =>
    intro s t ht hlen hlast _
    match s, hlen with
    | [x], _ =>
      have hx : x = t := hlast
      subst hx
      show init x + emis x 0 + 0 ≤ vcol T init trans emis 0 x
      rw [vcol]
      simp
  | succ i ih =>
    intro s t ht hlen hlast hmem
    have hne : s ≠ [] := by
      intro hcon
      rw [hcon] at hlen
      simp at hlen
    have hdecomp : s.dropLast ++ [t] = s := by
      rw [← hlast]
      exact dropLast_append_getLastD hne
    have hlen' : s.dropLast.length = i + 1 := by
      rw [List.length_dropLast, hlen]
      rfl
    have hne' : s.dropLast ≠ [] := by
      intro hcon
      rw [hcon] at hlen'
      simp at hlen'
    have hpmem : s.dropLast.getLastD 0 ∈ s := by
      have h0 := List.mem_append_left [t] (getLastD_mem hne' 0)
      rw [hdecomp] at h0
      exact h0
    have hp : s.dropLast.getLastD 0 < T := hmem _ hpmem
    have hih := ih s.dropLast (s.dropLast.getLastD 0) hp hlen' rfl
      (fun x hx => hmem x (by
        have h0 := List.mem_append_left [t] hx
        rw [hdecomp] at h0
        exact h0))
    have hscore : pathScore init trans emis s =
        pathScore init trans emis s.dropLast +
          trans (s.dropLast.getLastD 0) t + emis t (i + 1) := by
      conv_lhs => rw [← hdecomp]
      rw [pathScore_snoc init trans emis hne', hlen']
    set l := (List.range T).map (fun p => vcol T init trans emis i p + trans p t) with hl
    have hlen2 : l.length = T := by simp [hl]
    have hlne : l ≠ [] := by
      intro hcon
      rw [hcon] at hlen2
      simp at hlen2
      omega
    have hmeml : vcol T init trans emis i (s.dropLast.getLastD 0) +
        trans (s.dropLast.getLastD 0) t ∈ l := by
      rw [hl]
      exact List.mem_map_of_mem _ (List.mem_range.mpr hp)
    have hle : vcol T init trans emis i (s.dropLast.getLastD 0) +
        trans (s.dropLast.getLastD 0) t ≤ l.getD (argmaxIdx l) 0 := by
      rw [getD_argmaxIdx hlne]
      exact le_maxQ hmeml
    rw [hscore, vcol]
    calc pathScore init trans emis s.dropLast + trans (s.dropLast.getLastD 0) t +
          emis t (i + 1)
        ≤ vcol T init trans emis i (s.dropLast.getLastD 0) +
            trans (s.dropLast.getLastD 0) t + emis t (i + 1) :=
          add_le_add_right (add_le_add_right hih _) _
      _ ≤ l.getD (argmaxIdx l) 0 + emis t (i + 1) := add_le_add_right hle _

theorem mem_allSeqs (T : ℕ) : ∀ (N : ℕ) (s : List ℕ),
    s ∈ allSeqs T N ↔ s.length = N ∧ ∀ x ∈ s, x < T := by
  intro N
  induction N with
  | zero =>
    intro s
    simp only [allSeqs, List.mem_singleton]
    constructor
    · rintro rfl
      exact ⟨rfl, by simp⟩
    · rintro ⟨hlen, _⟩
      exact List.eq_nil_of_length_eq_zero hlen
  | succ n ih =>
    intro s
    simp only [allSeqs, List.mem_flatMap, List.mem_map, List.mem_range]
    constructor
    · rintro ⟨s', hs', t, ht, rfl⟩
      obtain ⟨hlen, hmem⟩ := (ih s').mp hs'
      refine ⟨by simp [hlen], ?_⟩
      intro x hx
      rcases List.mem_append.mp hx with h | h
      · exact hmem x h
      · rcases List.mem_singleton.mp h with rfl
        exact ht
    · rintro ⟨hlen, hmem⟩
      have hne : s ≠ [] := by
        intro hcon
        rw [hcon] at hlen
        simp at hlen
      refine ⟨s.dropLast, ?_, s.getLastD 0, ?_, dropLast_append_getLastD hne⟩
      · refine (ih s.dropLast).mpr ⟨by rw [List.length_dropLast, hlen]; rfl, ?_⟩
        intro x hx
        refine hmem x ?_
        have h0 := List.mem_append_left [s.getLastD 0] hx
        rw [dropLast_append_getLastD hne] at h0
        exact h0
      · exact hmem _ (getLastD_mem hne 0)

theorem viterbiIdx_opt {α : Type} [LinearOrderedCommRing α] (T : ℕ)
    (init : ℕ → α) (trans emis : ℕ → ℕ → α) (N : ℕ) (hT : 0 < T) (hN : 0 < N) :
    (viterbiIdx T init trans emis N).length = N ∧
    (∀ x ∈ viterbiIdx T init trans emis N, x < T) ∧
    (∀ s ∈ allSeqs T N,
      pathScore init trans emis s ≤
        pathScore init trans emis (viterbiIdx T init trans emis N)) ∧
    pathScore init trans emis (viterbiIdx T init trans emis N) =
      maxQ ((allSeqs T N).map (pathScore init trans emis)) := by
  set colList := (List.range T).map (fun t => vcol T init trans emis (N - 1) t)
    with hcol
  have hclen : colList.length = T := by simp [hcol]
  have hcne : colList ≠ [] := by
    intro hcon
    rw [hcon] at hclen
    simp at hclen
    omega
  have hstar : argmaxIdx colList < T := by
    have := argmaxIdx_lt_length hcne
    rwa [hclen] at this
  obtain ⟨hlen, hlast, hmem, hscore⟩ :=
    vpath_spec T init trans emis hT (N - 1) (argmaxIdx colList) hstar
  have hvit : viterbiIdx T init trans emis N =
      vpath T init trans emis (N - 1) (argmaxIdx colList) := rfl
  have hlenN : (viterbiIdx T init trans emis N).length = N := by
    rw [hvit, hlen]
    omega
  have hmemN : ∀ x ∈ viterbiIdx T init trans emis N, x < T := by
    rw [hvit]
    exact hmem
  have hmax : vcol T init trans emis (N - 1) (argmaxIdx colList) = maxQ colList := by
    have h1 := getD_argmaxIdx hcne 0
    have h2 := getD_range_map (fun t => vcol T init trans emis (N - 1) t) T
      (argmaxIdx colList) hstar 0
    rw [← hcol] at h2
    rw [← h1, h2]
  have hub : ∀ s ∈ allSeqs T N,
      pathScore init trans emis s ≤
        pathScore init trans emis (viterbiIdx T init trans emis N) := by
    intro s hs
    obtain ⟨hslen, hsmem⟩ := (mem_allSeqs T N s).mp hs
    have hsne : s ≠ [] := by
      intro hcon
      rw [hcon] at hslen
      simp at hslen
      omega
    have hst : s.getLastD 0 < T := hsmem _ (getLastD_mem hsne 0)
    have h1 : pathScore init trans emis s ≤
        vcol T init trans emis (N - 1) (s.getLastD 0) :=
      pathScore_le_vcol T init trans emis (N - 1) s (s.getLastD 0) hst
        (by omega) rfl hsmem
    have h2 : vcol T init trans emis (N - 1) (s.getLastD 0) ≤ maxQ colList := by
      refine le_maxQ ?_
      rw [hcol]
      exact List.mem_map_of_mem _ (List.mem_range.mpr hst)
    rw [hvit, hscore, hmax]
    exact le_trans h1 h2
  refine ⟨hlenN, hmemN, hub, ?_⟩
  have hvmem : viterbiIdx T init trans emis N ∈ allSeqs T N :=
    (mem_allSeqs T N _).mpr ⟨hlenN, hmemN⟩
  have hasne : (allSeqs T N).map (pathScore init trans emis) ≠ [] := by
    intro hcon
    have := List.map_eq_nil_iff.mp hcon
    rw [this] at hvmem
    cases hvmem
  refine le_antisymm (le_maxQ (List.mem_map_of_mem _ hvmem)) ?_
  obtain ⟨s0, hs0, heq⟩ := List.mem_map.mp (maxQ_mem hasne)
  rw [← heq]
  exact hub s0 hs0

theorem hmm_decodeIdx_ok {α : Type} [LinearOrderedCommRing α] (m : HmmNerModel α)
    (toks : List Token) (h1 : toks.length ≠ 0) (h2 : m.numTags ≠ 0) :
    m.decodeIdx toks = .ok (viterbiIdx m.numTags m.init_log_probs
      m.transition_log_probs (m.emisAt toks) toks.length) := by
  simp only [HmmNerModel.decodeIdx, if_neg h1, if_neg h2]

theorem crf_decodeIdx_ok {α : Type} [LinearOrderedCommRing α] (m : CrfNerModel α)
    (toks : List Token) (h1 : toks.length ≠ 0)
    (h2 : m.tag_indexer.objs.length ≠ 0) :
    (m.decodeIdx toks).1 = .ok (viterbiIdx m.tag_indexer.objs.length
      (fbs_score_init m.tag_indexer) (fbs_score_transition m.tag_indexer)
      (fbs_score_emission m.feature_weights (buildFeatureCache m toks).1)
      toks.length) := by
  simp only [CrfNerModel.decodeIdx, if_neg h1, if_neg h2]

/-- C1 (amended): for every non-empty token sequence and models with at
least one tag, `HmmNerModel.decode` and `CrfNerModel.decode` return a
tag-index sequence of length N whose score under the model's scorer —
score_init(t_0) + Σ score_emission(t_i, i) + Σ score_transition(t_{i-1},
t_i) — attains the maximum over all T^N tag sequences, i.e. equals the
brute-force maximum score.  Ties inside each argmax go to the
first-encountered maximum, but the returned sequence need not coincide with
the sequence that first-seen brute-force enumeration selects in forward
lexicographic order (see the counterexample). -/
theorem c1_decode_exact_optimal {α : Type} [LinearOrderedCommRing α]
    (mh : HmmNerModel α) (mc : CrfNerModel α)
    (toks : List Token) (hne : toks ≠ [])
    (hTh : 0 < mh.numTags) (hTc : 0 < mc.tag_indexer.objs.length) :
    (∃ s, mh.decodeIdx toks = .ok s ∧ s.length = toks.length ∧
      (∀ s' ∈ allSeqs mh.numTags toks.length,
        pathScore mh.init_log_probs mh.transition_log_probs (mh.emisAt toks) s' ≤
          pathScore mh.init_log_probs mh.transition_log_probs (mh.emisAt toks) s) ∧
      pathScore mh.init_log_probs mh.transition_log_probs (mh.emisAt toks) s =
        maxQ ((allSeqs mh.numTags toks.length).map
          (pathScore mh.init_log_probs mh.transition_log_probs (mh.emisAt toks)))) ∧
    (∃ s, (mc.decodeIdx toks).1 = .ok s ∧ s.length = toks.length ∧
      (∀ s' ∈ allSeqs mc.tag_indexer.objs.length toks.length,
        pathScore (fbs_score_init mc.tag_indexer)
          (fbs_score_transition mc.tag_indexer)
          (fbs_score_emission mc.feature_weights (buildFeatureCache mc toks).1) s' ≤
          pathScore (fbs_score_init mc.tag_indexer)
            (fbs_score_transition mc.tag_indexer)
            (fbs_score_emission mc.feature_weights (buildFeatureCache mc toks).1) s) ∧
      pathScore (fbs_score_init mc.tag_indexer) (fbs_score_transition mc.tag_indexer)
        (fbs_score_emission mc.feature_weights (buildFeatureCache mc toks).1) s =
        maxQ ((allSeqs mc.tag_indexer.objs.length toks.length).map
          (pathScore (fbs_score_init mc.tag_indexer)
            (fbs_score_transition mc.tag_indexer)
            (fbs_score_emission mc.feature_weights (buildFeatureCache mc toks).1)))) := by
  have hN : 0 < toks.length := List.length_pos.mpr hne
  constructor
  · obtain ⟨hlen, -, hub, hmax⟩ := viterbiIdx_opt mh.numTags mh.init_log_probs
      mh.transition_log_probs (mh.emisAt toks) toks.length hTh hN
    exact ⟨_, hmm_decodeIdx_ok mh toks (by omega) (by omega), hlen, hub, hmax⟩
  · obtain ⟨hlen, -, hub, hmax⟩ := viterbiIdx_opt mc.tag_indexer.objs.length
      (fbs_score_init mc.tag_indexer) (fbs_score_transition mc.tag_indexer)
      (fbs_score_emission mc.feature_weights (buildFeatureCache mc toks).1)
      toks.length hTc hN
    exact ⟨_, crf_decodeIdx_ok mc toks (by omega) (by omega), hlen, hub, hmax⟩

/-- C1 witness: the exactness theorem applied to the concrete two-tag HMM,
two-tag CRF and two-token sentence. -/
theorem c1_decode_exact_optimal_witness :
    ∃ s, hmmTieModel.decodeIdx tieToks = .ok s ∧ s.length = tieToks.length := by
  obtain ⟨⟨s, hs, hlen, -, -⟩, -⟩ := c1_decode_exact_optimal hmmTieModel
    crfTwoTagModel tieToks (by decide) (by decide) (by decide)
  exact ⟨s, hs, hlen⟩

/-- C1 counterexample: on `hmmTieModel` both [0, 1] and [1, 0] attain the
maximal score; the decoder returns [1, 0] (its final argmax and backpointers
break ties from the right end), while brute-force enumeration with first-seen
tie-breaking returns [0, 1], so the decode result does not equal the
brute-force first-seen selection the claim asserts. -/
theorem c1_counterexample :
    hmmTieModel.decodeIdx tieToks = .ok [1, 0] ∧
    bruteForceIdx hmmTieModel.numTags hmmTieModel.init_log_probs
      hmmTieModel.transition_log_probs (hmmTieModel.emisAt tieToks)
      tieToks.length = [0, 1] ∧
    pathScore hmmTieModel.init_log_probs hmmTieModel.transition_log_probs
      (hmmTieModel.emisAt tieToks) [1, 0] =
      pathScore hmmTieModel.init_log_probs hmmTieModel.transition_log_probs
        (hmmTieModel.emisAt tieToks) [0, 1] ∧
    ([1, 0] : List ℕ) ≠ [0, 1] := by decide

/-- C7 (amended): on the empty token sequence both decoders fail — no
labelled sentence is produced — but through the incidental numpy
`ValueError` raised when allocating the `(num_tags, -1)` backpointer array,
not through an explicit InvalidInput rejection (the source validates
nothing). -/
theorem c7_empty_input_error {α : Type} [LinearOrderedCommRing α]
    (mh : HmmNerModel α) (mc : CrfNerModel α) :
    mh.decode [] = .error .negativeDimensions ∧
    (mc.decode []).1 = .error .negativeDimensions := ⟨rfl, rfl⟩

/-- C7 counterexample: at the empty input the HMM decoder fails with the
numpy negative-dimensions ValueError, which is not the explicit InvalidInput
condition the claim asserts. -/
theorem c7_counterexample :
    hmmTieModel.decode [] = .error .negativeDimensions ∧
    PyErr.negativeDimensions ≠ PyErr.invalidInput := by decide

set_option maxRecDepth 100000 in
/-- C4 (code bug): `decode_beam` creates `next_beam` once and never clears
it, and after `current_beam = next_beam` both names alias a single beam
object, so hypotheses from earlier positions stay in the beam and compete
with their own extensions.  On the nine-tag zero-weight model and a
three-token sentence, the nine stale two-tag score-0 hypotheses outrank (by
first-seen tie-breaking) every score-0 three-tag extension, and `head()`
returns a two-tag sequence for a three-token sentence. -/
theorem c4_beam_stale_hypothesis :
    (crfNineTagModel.decode_beam nineToks).1 = .ok ["O", "O"] ∧
    nineToks.length = 3 := by decide

theorem beamInsert_length {α : Type} [LinearOrderedCommRing α]
    (l : List (List ℕ × α)) (e : List ℕ) (s : α) :
    (beamInsert l e s).length = l.length + 1 := by
  induction l with
  | nil => rfl
  | cons x xs ih =>
    rw [beamInsert]
    split
    · rfl
    · rw [List.length_cons, ih, List.length_cons]

theorem beam_add_elts_length {α : Type} [LinearOrderedCommRing α] (b : Beam α)
    (e : List ℕ) (s : α) :
    (b.add e s).elts.length = min b.size (b.elts.length + 1) := by
  rw [Beam.add]
  show ((beamInsert b.elts e s).take b.size).length = _
  rw [List.length_take, beamInsert_length]

theorem foldl_beam_add_length {α : Type} [LinearOrderedCommRing α]
    (g : ℕ → List ℕ) (sc : ℕ → α) :
    ∀ (l : List ℕ) (b : Beam α), b.size = 9 → b.elts.length ≤ 9 →
      ((l.foldl (fun b i => b.add (g i) (sc i)) b).elts.length =
          min 9 (b.elts.length + l.length) ∧
        (l.foldl (fun b i => b.add (g i) (sc i)) b).size = 9) := by
  intro l
  induction l with
  | nil =>
    intro b hb hle
    constructor
    · rw [List.foldl_nil, List.length_nil, Nat.add_zero, inf_eq_min]
      omega
    · exact hb
  | cons x xs ih =>
    intro b hb hle
    rw [List.foldl_cons]
    have haddlen : (b.add (g x) (sc x)).elts.length = min 9 (b.elts.length + 1) := by
      rw [beam_add_elts_length, hb]
    obtain ⟨h1, h2⟩ := ih (b.add (g x) (sc x)) hb
      (by rw [haddlen, inf_eq_min]; omega)
    constructor
    · rw [h1, haddlen, List.length_cons, inf_eq_min, inf_eq_min, inf_eq_min]
      omega
    · exact h2

theorem crfInitBeam_length {α : Type} [LinearOrderedCommRing α]
    (tag_indexer : Indexer) (weights : ℕ → α) (cache : List (List (List ℕ))) :
    (crfInitBeam tag_indexer weights cache).elts.length =
      min 9 tag_indexer.objs.length := by
  rw [crfInitBeam]
  have := (foldl_beam_add_length (fun i => [i])
    (fun i => fbs_score_init tag_indexer i + fbs_score_emission weights cache i 0)
    (List.range tag_indexer.objs.length) ⟨9, []⟩ rfl (by simp)).1
  simpa using this

/-- C10: with fewer than 9 tags (and at least one) and at least two tokens,
the beam after initialisation holds exactly one hypothesis per tag, yet the
first expansion step reads snapshot indices 0 through 8 (`for i in
range(beam_size)`), so `tags[i]` goes out of bounds and `decode_beam` fails
with IndexError instead of returning a labelled sentence. -/
theorem c10_beam_index_out_of_bounds {α : Type} [LinearOrderedCommRing α]
    (m : CrfNerModel α) (toks : List Token)
    (hT1 : 1 ≤ m.tag_indexer.objs.length)
    (hT9 : m.tag_indexer.objs.length < 9) (hN : 2 ≤ toks.length) :
    (crfInitBeam m.tag_indexer m.feature_weights
        (buildFeatureCache m toks).1).elts.length = m.tag_indexer.objs.length ∧
    (m.decode_beam toks).1 = .error .indexError := by
  have hlen : (crfInitBeam m.tag_indexer m.feature_weights
      (buildFeatureCache m toks).1).elts.length = m.tag_indexer.objs.length := by
    rw [crfInitBeam_length]
    omega
  refine ⟨hlen, ?_⟩
  have h0 : ¬ (toks.length = 0) := by omega
  obtain ⟨k, hk⟩ : ∃ k, toks.length - 1 = k + 1 := ⟨toks.length - 2, by omega⟩
  have hstep : beamStep m.tag_indexer m.feature_weights
      (buildFeatureCache m toks).1
      (crfInitBeam m.tag_indexer m.feature_weights (buildFeatureCache m toks).1,
        (⟨9, []⟩ : Beam α)) 1 = .error .indexError := by
    rw [beamStep]
    rw [if_neg (by rw [hlen]; omega), if_pos (by rw [hlen]; omega)]
  simp only [CrfNerModel.decode_beam, if_neg h0, hk, List.range'_succ,
    List.foldlM_cons, hstep]
  rfl

/-- C10 witness: the out-of-bounds theorem at the concrete two-tag CRF and
two-token sentence. -/
theorem c10_beam_index_out_of_bounds_witness :
    (crfTwoTagModel.decode_beam twoToks).1 = .error .indexError :=
  (c10_beam_index_out_of_bounds crfTwoTagModel twoToks (by decide) (by decide)
    (by decide)).2

theorem maybe_add_feature_false_snd (feats : List ℕ) (ix : Indexer) (f : String) :
    (maybe_add_feature feats ix false f).2 = ix := by
  rw [maybe_add_feature]
  simp only [Bool.false_eq_true, if_false]
  split <;> rfl

theorem foldl_snd_const {β γ δ : Type} (f : β × γ → δ → β × γ)
    (hf : ∀ acc x, (f acc x).2 = acc.2) :
    ∀ (l : List δ) (acc : β × γ), (l.foldl f acc).2 = acc.2 := by
  intro l
  induction l with
  | nil => intro acc; rfl
  | cons x xs ih =>
    intro acc
    rw [List.foldl_cons, ih, hf]

theorem extract_emission_features_false_snd (toks : List Token) (wi : ℕ)
    (tag : String) (ix : Indexer) :
    (extract_emission_features toks wi tag ix false).2 = ix := by
  rw [extract_emission_features]
  exact foldl_snd_const _ (fun acc f => maybe_add_feature_false_snd acc.1 acc.2 f)
    (emissionFeatureStrings toks wi tag) ([], ix)

theorem foldl_pairstep_snd {γ : Type} (ext : ℕ → Indexer → γ × Indexer)
    (hext : ∀ x ix, (ext x ix).2 = ix) :
    ∀ (l : List ℕ) (acc : List γ × Indexer),
      ((l.foldl (fun racc x =>
        let r := ext x racc.2
        (racc.1 ++ [r.1], r.2)) acc).2 = acc.2) := by
  intro l
  induction l with
  | nil => intro acc; rfl
  | cons x xs ih =>
    intro acc
    rw [List.foldl_cons, ih]
    exact hext x acc.2

theorem cacheRow_snd {α : Type} (m : CrfNerModel α) (toks : List Token)
    (word_idx : ℕ) (ix : Indexer) : (cacheRow m toks word_idx ix).2 = ix := by
  rw [cacheRow]
  exact foldl_pairstep_snd
    (fun tag_idx ix2 => extract_emission_features toks word_idx
      (m.tag_indexer.getObject tag_idx) ix2 false)
    (fun tag_idx ix2 => extract_emission_features_false_snd toks word_idx
      (m.tag_indexer.getObject tag_idx) ix2)
    (List.range m.tag_indexer.objs.length) ([], ix)

theorem buildFeatureCache_snd {α : Type} (m : CrfNerModel α) (toks : List Token) :
    (buildFeatureCache m toks).2 = m.feature_indexer := by
  rw [buildFeatureCache]
  exact foldl_pairstep_snd
    (fun word_idx ix2 => cacheRow m toks word_idx ix2)
    (fun word_idx ix2 => cacheRow_snd m toks word_idx ix2)
    (List.range toks.length) ([], m.feature_indexer)

/-- C9: `CrfNerModel.decode` and `CrfNerModel.decode_beam` leave the model
state unchanged: feature extraction runs with `add_to_indexer=False`, which
only looks features up (unseen feature strings are dropped, never
registered), and the tag indexer and the weight vector are only read.  The
post-call model state both functions return is therefore the original model;
only the call-local trellis, beams and feature cache are created. -/
theorem c9_decode_no_mutation {α : Type} [LinearOrderedCommRing α]
    (m : CrfNerModel α) (toks : List Token) :
    (m.decode toks).2 = m ∧ (m.decode_beam toks).2 = m := by
  have hc : (buildFeatureCache m toks).2 = m.feature_indexer :=
    buildFeatureCache_snd m toks
  have hm : ({ m with feature_indexer := (buildFeatureCache m toks).2 }
      : CrfNerModel α) = m := by
    rw [hc]
  constructor
  · show (m.decodeIdx toks).2 = m
    by_cases h1 : toks.length = 0
    · simp only [CrfNerModel.decodeIdx, if_pos h1]
      exact hm
    · by_cases h2 : m.tag_indexer.objs.length = 0
      · simp only [CrfNerModel.decodeIdx, if_neg h1, if_pos h2]
        exact hm
      · simp only [CrfNerModel.decodeIdx, if_neg h1, if_neg h2]
        exact hm
  · by_cases h1 : toks.length = 0
    · simp only [CrfNerModel.decode_beam, if_pos h1]
      exact hm
    · simp only [CrfNerModel.decode_beam, if_neg h1]
      split
      · exact hm
      · split
        · exact hm
        · exact hm

theorem firstIdx_some_spec :
    ∀ (l : List String) (s : String) (i : ℕ), firstIdx l s = some i →
      i < l.length ∧ l.getD i "" = s := by
  intro l
  induction l with
  | nil => intro s i h; cases h
  | cons x xs ih =>
    intro s i h
    rw [firstIdx] at h
    by_cases hx : x == s
    · rw [if_pos hx] at h
      cases h
      have hxs : x = s := by simpa using hx
      exact ⟨Nat.succ_pos _, by rw [List.getD_cons_zero]; exact hxs⟩
    · rw [if_neg hx] at h
      match hrec : firstIdx xs s with
      | none => rw [hrec] at h; cases h
      | some j =>
        rw [hrec] at h
        have h' : some (j + 1) = some i := h
        obtain ⟨h1, h2⟩ := ih s j hrec
        cases h'
        exact ⟨by simpa [Nat.succ_lt_succ_iff] using h1, by simpa using h2⟩

theorem firstIdx_of_mem {l : List String} {s : String} (h : s ∈ l) :
    ∃ i, firstIdx l s = some i := by
  induction l with
  | nil => cases h
  | cons x xs ih =>
    rw [firstIdx]
    by_cases hx : x == s
    · exact ⟨0, by rw [if_pos hx]⟩
    · rcases List.mem_cons.mp h with hcon | hmem
      · exact absurd (by simp [hcon]) hx
      · obtain ⟨j, hj⟩ := ih hmem
        exact ⟨j + 1, by rw [if_neg hx, hj]; rfl⟩

theorem firstIdx_append_left {l : List String} {s : String} {i : ℕ}
    (h : firstIdx l s = some i) (l' : List String) :
    firstIdx (l ++ l') s = some i := by
  induction l generalizing i with
  | nil => cases h
  | cons x xs ih =>
    rw [firstIdx] at h
    rw [List.cons_append, firstIdx]
    by_cases hx : x == s
    · rw [if_pos hx] at h ⊢
      exact h
    · rw [if_neg hx] at h ⊢
      match hrec : firstIdx xs s with
      | none => rw [hrec] at h; cases h
      | some j =>
        rw [hrec] at h
        rw [ih hrec]
        exact h

theorem getD_append_length (l : List String) (s : String) (d : String) :
    (l ++ [s]).getD l.length d = s := by
  induction l with
  | nil => rfl
  | cons x xs ih =>
    rw [List.cons_append, List.length_cons, List.getD_cons_succ]
    exact ih

/-- C8 counterexample: for the word "UNK" itself with a corpus count of 2
(not below the 1.5 threshold), `get_word_index` still returns the index of
the "UNK" sentinel, so "returns the index of the UNK sentinel exactly when
the word's corpus count is below 2" fails at this input (the word's own index
is the sentinel's index). -/
theorem c8_counterexample :
    get_word_index ⟨["UNK"]⟩ (fun _ => 2) "UNK" = (0, ⟨["UNK"]⟩) ∧
    (Indexer.mk ["UNK"]).indexOf "UNK" = 0 ∧
    ¬ (2 * 2 < 3) := by decide

/-- C8 (amended): for every training word counter and every word other than
"UNK" itself, provided the "UNK" sentinel is registered (as `train_hmm_model`
does before any lookup), `get_word_index` returns the index of the "UNK"
sentinel exactly when the word's count is below the source's 1.5 threshold
(i.e. the word occurs at most once, including not at all), and otherwise
returns — registering it if needed — the word's own index; hence a word
other than "UNK" observed exactly once is never given an id of its own.  For
the word "UNK" itself the "exactly when" fails, because its own index is the
sentinel's index (see the counterexample). -/
theorem c8_get_word_index_unk (ix : Indexer) (cnt : String → ℕ) (w : String)
    (hUNK : "UNK" ∈ ix.objs) (hw : w ≠ "UNK") :
    (((get_word_index ix cnt w).2).indexOf "UNK" =
        ((get_word_index ix cnt w).1 : Int) ↔ 2 * cnt w < 3) ∧
    (¬ 2 * cnt w < 3 →
      ((get_word_index ix cnt w).2).getObject (get_word_index ix cnt w).1 = w) := by
  obtain ⟨j, hj⟩ := firstIdx_of_mem hUNK
  obtain ⟨hjlt, hjval⟩ := firstIdx_some_spec ix.objs "UNK" j hj
  by_cases hlt : 2 * cnt w < 3
  · have hgw : get_word_index ix cnt w = (j, ix) := by
      rw [get_word_index, if_pos hlt, Indexer.addAndGet, hj]
    rw [hgw]
    constructor
    · rw [Indexer.indexOf, hj]
      simp [hlt]
    · intro hcon
      exact absurd hlt hcon
  · have hgw : get_word_index ix cnt w = ix.addAndGet w := by
      rw [get_word_index, if_neg hlt]
    rw [hgw]
    match hfw : firstIdx ix.objs w with
    | some k =>
      have haw : ix.addAndGet w = (k, ix) := by
        rw [Indexer.addAndGet, hfw]
      obtain ⟨hklt, hkval⟩ := firstIdx_some_spec ix.objs w k hfw
      rw [haw]
      constructor
      · rw [Indexer.indexOf, hj]
        simp only [iff_iff_implies_and_implies]
        constructor
        · intro hjk
          exfalso
          have : j = k := by exact_mod_cast hjk
          rw [this, hkval] at hjval
          exact hw hjval
        · intro hcon
          exact absurd hcon hlt
      · intro _
        exact hkval
    | none =>
      have haw : ix.addAndGet w = (ix.objs.length, ⟨ix.objs ++ [w]⟩) := by
        rw [Indexer.addAndGet, hfw]
      rw [haw]
      constructor
      · rw [Indexer.indexOf]
        show (match firstIdx (ix.objs ++ [w]) "UNK" with
          | some i => (i : Int) | none => -1) = (ix.objs.length : Int) ↔ _
        rw [firstIdx_append_left hj]
        simp only [iff_iff_implies_and_implies]
        constructor
        · intro hcon
          exfalso
          have : j = ix.objs.length := by exact_mod_cast hcon
          omega
        · intro hcon
          exact absurd hcon hlt
      · intro _
        show (ix.objs ++ [w]).getD ix.objs.length "" = w
        exact getD_append_length ix.objs w ""

/-- C8 witness: the amended theorem at the sentinel-only indexer, a counter
giving every word count 2, and the word "a": the word gets its own index. -/
theorem c8_get_word_index_unk_witness :
    ((get_word_index ⟨["UNK"]⟩ (fun _ => 2) "a").2).getObject
      (get_word_index ⟨["UNK"]⟩ (fun _ => 2) "a").1 = "a" :=
  (c8_get_word_index_unk ⟨["UNK"]⟩ (fun _ => 2) "a" (by decide)
    (by decide)).2 (by decide)

theorem fbs_score_init_nonpos {α : Type} [LinearOrderedCommRing α]
    (tix : Indexer) (t : ℕ) : fbs_score_init tix t ≤ (0 : α) := by
  rw [fbs_score_init]
  split
  · norm_num
  · exact le_refl 0

theorem fbs_score_transition_nonpos {α : Type} [LinearOrderedCommRing α]
    (tix : Indexer) (a b : ℕ) : fbs_score_transition tix a b ≤ (0 : α) := by
  rw [fbs_score_transition]
  split
  · norm_num
  · exact le_refl 0

theorem getD_map_str (f : ℕ → String) :
    ∀ (s : List ℕ) (k : ℕ), k < s.length →
      (s.map f).getD k "" = f (s.getD k 0) := by
  intro s
  induction s with
  | nil => intro k hk; simp at hk
  | cons x xs ih =>
    intro k hk
    match k with
    | 0 => rfl
    | k + 1 =>
      rw [List.map_cons, List.getD_cons_succ, List.getD_cons_succ]
      exact ih k (by simpa [Nat.succ_lt_succ_iff] using hk)

theorem pathFrom_le_bound {α : Type} [LinearOrderedCommRing α]
    (trans emis : ℕ → ℕ → α) (B : α)
    (htrans : ∀ a b, trans a b ≤ 0) :
    ∀ (s : List ℕ) (pos p : ℕ),
      (∀ t i, t ∈ s → pos ≤ i → i < pos + s.length → emis t i ≤ B) →
      pathFrom trans emis pos p s ≤ (s.length : α) * B := by
  intro s
  induction s with
  | nil =>
    intro pos p _
    rw [pathFrom]
    simp
  | cons t rest ih =>
    intro pos p hEm
    rw [pathFrom]
    have h1 : emis t pos ≤ B :=
      hEm t pos (List.mem_cons_self _ _) (le_refl _)
        (by rw [List.length_cons]; omega)
    have h2 : pathFrom trans emis (pos + 1) t rest ≤ (rest.length : α) * B :=
      ih (pos + 1) t (fun t' i ht' hge hlt =>
        hEm t' i (List.mem_cons_of_mem _ ht') (by omega)
          (by rw [List.length_cons]; omega))
    have h3 : trans p t ≤ 0 := htrans p t
    have hcast : ((t :: rest).length : α) = (rest.length : α) + 1 := by
      rw [List.length_cons]
      push_cast
      ring
    calc trans p t + emis t pos + pathFrom trans emis (pos + 1) t rest
        ≤ 0 + B + (rest.length : α) * B :=
          add_le_add (add_le_add h3 h1) h2
      _ = ((t :: rest).length : α) * B := by rw [hcast]; ring

theorem pathFrom_replicate_ge {α : Type} [LinearOrderedCommRing α]
    (trans emis : ℕ → ℕ → α) (B : α) (oi : ℕ)
    (htoo : trans oi oi = 0) :
    ∀ (k pos : ℕ), (∀ i, pos ≤ i → i < pos + k → -B ≤ emis oi i) →
      -((k : α) * B) ≤ pathFrom trans emis pos oi (List.replicate k oi) := by
  intro k
  induction k with
  | zero =>
    intro pos _
    rw [List.replicate, pathFrom]
    simp
  | succ k ih =>
    intro pos hEm
    rw [List.replicate, pathFrom, htoo]
    have h1 : -B ≤ emis oi pos := hEm pos (le_refl _) (by omega)
    have h2 : -((k : α) * B) ≤ pathFrom trans emis (pos + 1) oi (List.replicate k oi) :=
      ih (pos + 1) (fun i hge hlt => hEm i (by omega) (by omega))
    have hcast : ((k + 1 : ℕ) : α) = (k : α) + 1 := by push_cast; ring
    calc -(((k + 1 : ℕ) : α) * B) = 0 + -B + -((k : α) * B) := by rw [hcast]; ring
      _ ≤ 0 + emis oi pos + pathFrom trans emis (pos + 1) oi (List.replicate k oi) :=
          add_le_add (add_le_add (le_refl 0) h1) h2

theorem pathFrom_penalty_le {α : Type} [LinearOrderedCommRing α]
    (trans emis : ℕ → ℕ → α) (B : α)
    (htrans : ∀ a b, trans a b ≤ 0) :
    ∀ (s : List ℕ) (pos p : ℕ),
      (∀ t i, t ∈ s → pos ≤ i → i < pos + s.length → emis t i ≤ B) →
      hasPenaltyLink trans p s →
      pathFrom trans emis pos p s ≤ -1000 + (s.length : α) * B := by
  intro s
  induction s with
  | nil =>
    intro pos p _ hlink
    cases hlink
  | cons t rest ih =>
    intro pos p hEm hlink
    rw [pathFrom]
    have h1 : emis t pos ≤ B :=
      hEm t pos (List.mem_cons_self _ _) (le_refl _)
        (by rw [List.length_cons]; omega)
    have hcast : ((t :: rest).length : α) = (rest.length : α) + 1 := by
      rw [List.length_cons]
      push_cast
      ring
    rcases hlink with hpen | hlink
    · have h2 : pathFrom trans emis (pos + 1) t rest ≤ (rest.length : α) * B :=
        pathFrom_le_bound trans emis B htrans rest (pos + 1) t
          (fun t' i ht' hge hlt =>
            hEm t' i (List.mem_cons_of_mem _ ht') (by omega)
              (by rw [List.length_cons]; omega))
      rw [hpen]
      calc (-1000 : α) + emis t pos + pathFrom trans emis (pos + 1) t rest
          ≤ -1000 + B + (rest.length : α) * B :=
            add_le_add (add_le_add (le_refl _) h1) h2
        _ = -1000 + ((t :: rest).length : α) * B := by rw [hcast]; ring
    · have h2 : pathFrom trans emis (pos + 1) t rest ≤
          -1000 + (rest.length : α) * B :=
        ih (pos + 1) t
          (fun t' i ht' hge hlt =>
            hEm t' i (List.mem_cons_of_mem _ ht') (by omega)
              (by rw [List.length_cons]; omega))
          hlink
      have h3 : trans p t ≤ 0 := htrans p t
      calc trans p t + emis t pos + pathFrom trans emis (pos + 1) t rest
          ≤ 0 + B + (-1000 + (rest.length : α) * B) :=
            add_le_add (add_le_add h3 h1) h2
        _ = -1000 + ((t :: rest).length : α) * B := by rw [hcast]; ring

theorem hasPenaltyLink_of_adjacent {α : Type} [LinearOrderedCommRing α]
    (trans : ℕ → ℕ → α) :
    ∀ (s : List ℕ) (p k : ℕ), k + 1 < (p :: s).length →
      trans ((p :: s).getD k 0) ((p :: s).getD (k + 1) 0) = -1000 →
      hasPenaltyLink trans p s := by
  intro s
  induction s with
  | nil =>
    intro p k hk
    simp at hk
  | cons t rest ih =>
    intro p k hk htr
    match k with
    | 0 =>
      left
      exact htr
    | k + 1 =>
      right
      refine ih t k ?_ ?_
      · simp only [List.length_cons] at hk ⊢
        omega
      · rw [List.getD_cons_succ, List.getD_cons_succ] at htr
        exact htr

/-- C5 counterexample: with the feature "I-A:Word0=a" carrying weight 2000,
the decode output on the one-token sentence "a" begins with the I- tag
"I-A": the finite -1000 hard penalty is overwhelmed by a large enough
emission score, so the invariant does not hold for every weight vector. -/
theorem c5_counterexample :
    (crfPenModel.decode penToks).1 = .ok ["I-A"] ∧ isI "I-A" = true := by decide

/-- C5 (amended): for every token sequence and weight vector whose emission
scores are bounded by `B` with `2·N·B < 1000` (in particular any weight
vector whose per-position score magnitude stays below 500/N), and a tag set
containing "O", the tag sequence produced by `CrfNerModel.decode` under the
feature-based scorer never contains a BIO-illegal adjacent pair and never
begins with an I- tag.  Without the bound the -1000 penalty, being finite,
can be overwhelmed — see the counterexample. -/
theorem c5_decode_bio_legal {α : Type} [LinearOrderedCommRing α]
    (m : CrfNerModel α) (toks : List Token) (B : α) (oi : ℕ)
    (hne : toks ≠ [])
    (hoi : oi < m.tag_indexer.objs.length)
    (hOobj : m.tag_indexer.getObject oi = "O")
    (hB : ∀ t < m.tag_indexer.objs.length, ∀ i < toks.length,
      |fbs_score_emission m.feature_weights (buildFeatureCache m toks).1 t i| ≤ B)
    (hbound : 2 * (toks.length : α) * B < 1000) :
    ∃ ts, (m.decode toks).1 = .ok ts ∧ ts.length = toks.length ∧
      isI (ts.getD 0 "") = false ∧
      ∀ k, k + 1 < ts.length →
        bioIllegal (ts.getD k "") (ts.getD (k + 1) "") = false := by
  have hTpos : 0 < m.tag_indexer.objs.length := lt_of_le_of_lt (Nat.zero_le oi) hoi
  have hNpos : 0 < toks.length := List.length_pos.mpr hne
  set T := m.tag_indexer.objs.length with hT
  set N := toks.length with hN0
  set emis : ℕ → ℕ → α :=
    fbs_score_emission m.feature_weights (buildFeatureCache m toks).1 with hemis
  set tr : ℕ → ℕ → α := fbs_score_transition m.tag_indexer with htr
  set ini : ℕ → α := fbs_score_init m.tag_indexer with hini
  obtain ⟨hlen, hmem, hub, -⟩ := viterbiIdx_opt T ini tr emis N hTpos hNpos
  set s := viterbiIdx T ini tr emis N with hs
  have hdec1 := crf_decodeIdx_ok m toks (by omega) (by omega)
  have hdec : (m.decode toks).1 = .ok (s.map m.tag_indexer.getObject) := by
    show ((m.decodeIdx toks).1.map (fun u => u.map m.tag_indexer.getObject)) = _
    rw [hdec1]
    rfl
  have htrans_np : ∀ a b, tr a b ≤ 0 := fun a b => by
    rw [htr]; exact fbs_score_transition_nonpos m.tag_indexer a b
  obtain ⟨t0, rest, hsplit⟩ : ∃ t0 rest, s = t0 :: rest := by
    cases hs2 : s with
    | nil => rw [hs2] at hlen; simp at hlen; omega
    | cons a l => exact ⟨a, l, rfl⟩
  have hrestlen : N = rest.length + 1 := by
    rw [hsplit] at hlen
    simp only [List.length_cons] at hlen
    omega
  have hcastN : (N : α) = (rest.length : α) + 1 := by
    rw [hrestlen]
    push_cast
    ring
  have ht0mem : t0 ∈ s := by rw [hsplit]; exact List.mem_cons_self _ _
  have hEmUB : ∀ t i, t ∈ rest → 1 ≤ i → i < 1 + rest.length → emis t i ≤ B := by
    intro t i htm hge hlt
    have htT : t < T := hmem t (by rw [hsplit]; exact List.mem_cons_of_mem _ htm)
    exact (abs_le.mp (hB t htT i (by omega))).2
  have hNoPen : ¬ (pathScore ini tr emis s ≤ -1000 + (N : α) * B) := by
    intro hle
    have hrep_mem : List.replicate N oi ∈ allSeqs T N := by
      refine (mem_allSeqs T N _).mpr ⟨List.length_replicate _ _, ?_⟩
      intro x hx
      rw [List.eq_of_mem_replicate hx]
      exact hoi
    have hrep_le : pathScore ini tr emis (List.replicate N oi) ≤
        pathScore ini tr emis s := hub _ hrep_mem
    have htoo : tr oi oi = 0 := by
      rw [htr, fbs_score_transition, hOobj]
      rw [show bioIllegal "O" "O" = false from rfl]
      simp
    have hinit0 : ini oi = 0 := by
      rw [hini, fbs_score_init, hOobj]
      rw [show isI "O" = false from rfl]
      simp
    obtain ⟨N', hN'⟩ : ∃ N', N = N' + 1 := ⟨N - 1, by omega⟩
    have hlow : -((N : α) * B) ≤ pathScore ini tr emis (List.replicate N oi) := by
      rw [hN', List.replicate_succ, pathScore, hinit0]
      have h1 : -B ≤ emis oi 0 := (abs_le.mp (hB oi hoi 0 (by omega))).1
      have h2 : -((N' : α) * B) ≤
          pathFrom tr emis 1 oi (List.replicate N' oi) := by
        refine pathFrom_replicate_ge tr emis B oi htoo N' 1 ?_
        intro i hge hlt
        exact (abs_le.mp (hB oi hoi i (by omega))).1
      have hcast' : ((N' + 1 : ℕ) : α) = (N' : α) + 1 := by push_cast; ring
      calc -(((N' + 1 : ℕ) : α) * B) = 0 + -B + -((N' : α) * B) := by
            rw [hcast']; ring
        _ ≤ 0 + emis oi 0 + pathFrom tr emis 1 oi (List.replicate N' oi) :=
            add_le_add (add_le_add (le_refl 0) h1) h2
    have hchain : -((N : α) * B) ≤ -1000 + (N : α) * B :=
      le_trans (le_trans hlow hrep_le) hle
    have h3 : (1000 : α) ≤ 2 * (N : α) * B := by
      have h4 := add_le_add_right hchain ((N : α) * B + 1000)
      calc (1000 : α) = -((N : α) * B) + ((N : α) * B + 1000) := by ring
        _ ≤ (-1000 + (N : α) * B) + ((N : α) * B + 1000) := h4
        _ = 2 * (N : α) * B := by ring
    exact absurd hbound (not_lt.mpr h3)
  refine ⟨s.map m.tag_indexer.getObject, hdec, by rw [List.length_map, hlen], ?_, ?_⟩
  · by_contra hcon
    rw [Bool.not_eq_false] at hcon
    rw [getD_map_str _ s 0 (by omega)] at hcon
    have hinitpen : ini (s.getD 0 0) = -1000 := by
      rw [hini, fbs_score_init, if_pos hcon]
    have ht0 : s.getD 0 0 = t0 := by rw [hsplit]; rfl
    have hbound2 : pathScore ini tr emis s ≤ -1000 + (N : α) * B := by
      rw [hsplit, pathScore]
      have h1 : emis t0 0 ≤ B :=
        (abs_le.mp (hB t0 (hmem t0 ht0mem) 0 (by omega))).2
      have h2 : pathFrom tr emis 1 t0 rest ≤ (rest.length : α) * B :=
        pathFrom_le_bound tr emis B htrans_np rest 1 t0 hEmUB
      rw [ht0] at hinitpen
      calc ini t0 + emis t0 0 + pathFrom tr emis 1 t0 rest
          ≤ -1000 + B + (rest.length : α) * B := by
            rw [hinitpen]
            exact add_le_add (add_le_add (le_refl _) h1) h2
        _ = -1000 + (N : α) * B := by rw [hcastN]; ring
    exact hNoPen hbound2
  · intro k hk
    by_contra hcon
    rw [Bool.not_eq_false] at hcon
    rw [List.length_map, hlen] at hk
    rw [getD_map_str _ s k (by omega), getD_map_str _ s (k + 1) (by omega)] at hcon
    have htrpen : tr (s.getD k 0) (s.getD (k + 1) 0) = -1000 := by
      rw [htr, fbs_score_transition, if_pos hcon]
    have hlink : hasPenaltyLink tr t0 rest := by
      refine hasPenaltyLink_of_adjacent tr rest t0 k ?_ ?_
      · rw [← hsplit, hlen]
        omega
      · rw [← hsplit]
        exact htrpen
    have hbound2 : pathScore ini tr emis s ≤ -1000 + (N : α) * B := by
      rw [hsplit, pathScore]
      have h0 : ini t0 ≤ 0 := by
        rw [hini]; exact fbs_score_init_nonpos m.tag_indexer t0
      have h1 : emis t0 0 ≤ B :=
        (abs_le.mp (hB t0 (hmem t0 ht0mem) 0 (by omega))).2
      have h2 : pathFrom tr emis 1 t0 rest ≤ -1000 + (rest.length : α) * B :=
        pathFrom_penalty_le tr emis B htrans_np rest 1 t0 hEmUB hlink
      calc ini t0 + emis t0 0 + pathFrom tr emis 1 t0 rest
          ≤ 0 + B + (-1000 + (rest.length : α) * B) :=
            add_le_add (add_le_add h0 h1) h2
        _ = -1000 + (N : α) * B := by rw [hcastN]; ring
    exact hNoPen hbound2

set_option maxRecDepth 100000 in
/-- C5 witness: the amended invariant at the concrete two-tag zero-weight
CRF (where every emission score is 0). -/
theorem c5_decode_bio_legal_witness :
    ∃ ts, (crfTwoTagModel.decode twoToks).1 = .ok ts ∧
      isI (ts.getD 0 "") = false := by
  obtain ⟨ts, h1, -, h3, -⟩ := c5_decode_bio_legal crfTwoTagModel twoToks
    (0 : ℤ) 0 (by decide) (by decide) (by decide) (by decide) (by decide)
  exact ⟨ts, h1, h3⟩

theorem exp_lse (T : ℕ) (hT : 0 < T) (f : ℕ → ℝ) :
    Real.exp (lse T f) = ∑ t ∈ Finset.range T, Real.exp (f t) := by
  rw [lse, Real.exp_log]
  refine Finset.sum_pos (fun t _ => Real.exp_pos (f t)) ?_
  exact Finset.nonempty_range_iff.mpr (by omega)

theorem betaM_rec (T N : ℕ) (trans emis : ℕ → ℕ → ℝ) (i p : ℕ)
    (hi : i + 1 < N) :
    betaM T N trans emis i p =
      lse T (fun c => betaM T N trans emis (i + 1) c + trans p c
        + emis c (i + 1)) := by
  have hfuel : N - 1 - i = (N - 1 - (i + 1)) + 1 := by omega
  rw [betaM, hfuel, betaAux]
  rfl

theorem sumExp_step (T N : ℕ) (trans emis : ℕ → ℕ → ℝ) (hT : 0 < T)
    (i : ℕ) (hi : i + 1 < N) :
    ∑ t ∈ Finset.range T,
        Real.exp (alphaM T trans emis i t + betaM T N trans emis i t) =
      ∑ t ∈ Finset.range T,
        Real.exp (alphaM T trans emis (i + 1) t + betaM T N trans emis (i + 1) t) := by
  have hexpb : ∀ p, Real.exp (betaM T N trans emis i p) =
      ∑ c ∈ Finset.range T,
        Real.exp (betaM T N trans emis (i + 1) c + trans p c + emis c (i + 1)) := by
    intro p
    rw [betaM_rec T N trans emis i p hi, exp_lse T hT]
  have hexpa : ∀ c, Real.exp (alphaM T trans emis (i + 1) c) =
      ∑ p ∈ Finset.range T,
        Real.exp (alphaM T trans emis i p + trans p c + emis c (i + 1)) := by
    intro c
    rw [alphaM, exp_lse T hT]
  calc ∑ t ∈ Finset.range T,
        Real.exp (alphaM T trans emis i t + betaM T N trans emis i t)
      = ∑ p ∈ Finset.range T, Real.exp (alphaM T trans emis i p) *
          Real.exp (betaM T N trans emis i p) := by
        refine Finset.sum_congr rfl ?_
        intro p _
        rw [Real.exp_add]
    _ = ∑ p ∈ Finset.range T, ∑ c ∈ Finset.range T,
          Real.exp (alphaM T trans emis i p) *
            Real.exp (betaM T N trans emis (i + 1) c + trans p c + emis c (i + 1)) := by
        refine Finset.sum_congr rfl ?_
        intro p _
        rw [hexpb p, Finset.mul_sum]
    _ = ∑ c ∈ Finset.range T, ∑ p ∈ Finset.range T,
          Real.exp (alphaM T trans emis i p) *
            Real.exp (betaM T N trans emis (i + 1) c + trans p c + emis c (i + 1)) :=
        Finset.sum_comm
    _ = ∑ c ∈ Finset.range T, Real.exp (alphaM T trans emis (i + 1) c) *
          Real.exp (betaM T N trans emis (i + 1) c) := by
        refine Finset.sum_congr rfl ?_
        intro c _
        rw [hexpa c, Finset.sum_mul]
        refine Finset.sum_congr rfl ?_
        intro p _
        rw [← Real.exp_add, ← Real.exp_add]
        congr 1
        ring
    _ = ∑ t ∈ Finset.range T,
          Real.exp (alphaM T trans emis (i + 1) t + betaM T N trans emis (i + 1) t) := by
        refine Finset.sum_congr rfl ?_
        intro t _
        rw [Real.exp_add]

theorem sumExp_eq_first (T N : ℕ) (trans emis : ℕ → ℕ → ℝ) (hT : 0 < T) :
    ∀ i, i < N →
      ∑ t ∈ Finset.range T,
          Real.exp (alphaM T trans emis i t + betaM T N trans emis i t) =
        ∑ t ∈ Finset.range T,
          Real.exp (alphaM T trans emis 0 t + betaM T N trans emis 0 t) := by
  intro i
  induction i with
  | zero => intro _; rfl
  | succ i ih =>
    intro hi
    rw [← sumExp_step T N trans emis hT i hi]
    exact ih (by omega)

/-- C2: for every sentence length N ≥ 1 and every scorer (with at least one
tag), the per-position normaliser `denominators[i]` of `compute_gradient` —
the logsumexp over tags of alpha + beta — has the same value at every
position; in particular the forward log-partition at the last position
equals the backward log-partition at the first; and at every position the
marginals `exp(alpha + beta - denominators[i])` sum to 1 over tags. -/
theorem c2_forward_backward_consistency (T N : ℕ) (trans emis : ℕ → ℕ → ℝ)
    (hT : 0 < T) (hN : 0 < N) :
    (∀ i, i < N → ∀ j, j < N →
      zNorm T N trans emis i = zNorm T N trans emis j) ∧
    (lse T (fun t => alphaM T trans emis (N - 1) t) =
      lse T (fun t => betaM T N trans emis 0 t + emis t 0)) ∧
    (∀ i, i < N →
      ∑ t ∈ Finset.range T, marginalP T N trans emis t i = 1) := by
  have hzS : ∀ i, zNorm T N trans emis i =
      Real.log (∑ t ∈ Finset.range T,
        Real.exp (alphaM T trans emis i t + betaM T N trans emis i t)) := by
    intro i
    rfl
  have hzconst : ∀ i, i < N → ∀ j, j < N →
      zNorm T N trans emis i = zNorm T N trans emis j := by
    intro i hi j hj
    rw [hzS i, hzS j, sumExp_eq_first T N trans emis hT i hi,
      sumExp_eq_first T N trans emis hT j hj]
  have hSpos : ∀ i, 0 < ∑ t ∈ Finset.range T,
      Real.exp (alphaM T trans emis i t + betaM T N trans emis i t) := by
    intro i
    refine Finset.sum_pos (fun t _ => Real.exp_pos _) ?_
    exact Finset.nonempty_range_iff.mpr (by omega)
  refine ⟨hzconst, ?_, ?_⟩
  · have hblast : ∀ t, betaM T N trans emis (N - 1) t = 0 := by
      intro t
      rw [betaM, Nat.sub_self]
      rfl
    have h1 : lse T (fun t => alphaM T trans emis (N - 1) t) =
        zNorm T N trans emis (N - 1) := by
      rw [zNorm]
      congr 1
      funext t
      rw [hblast t, add_zero]
    have h2 : lse T (fun t => betaM T N trans emis 0 t + emis t 0) =
        zNorm T N trans emis 0 := by
      rw [zNorm]
      congr 1
      funext t
      have ha0 : alphaM T trans emis 0 t = emis t 0 := rfl
      rw [ha0]
      ring
    rw [h1, h2]
    exact hzconst (N - 1) (by omega) 0 (by omega)
  · intro i hi
    have hexpz : Real.exp (zNorm T N trans emis i) =
        ∑ t ∈ Finset.range T,
          Real.exp (alphaM T trans emis i t + betaM T N trans emis i t) :=
      exp_lse T hT _
    calc ∑ t ∈ Finset.range T, marginalP T N trans emis t i
        = ∑ t ∈ Finset.range T,
            Real.exp (alphaM T trans emis i t + betaM T N trans emis i t) /
              Real.exp (zNorm T N trans emis i) := by
          refine Finset.sum_congr rfl ?_
          intro t _
          rw [marginalP, Real.exp_sub]
      _ = (∑ t ∈ Finset.range T,
            Real.exp (alphaM T trans emis i t + betaM T N trans emis i t)) /
              Real.exp (zNorm T N trans emis i) := by
          rw [Finset.sum_div]
      _ = 1 := by
          rw [hexpz]
          exact div_self (ne_of_gt (hSpos i))

/-- C2 witness: the consistency theorem at a one-tag, one-position scorer
with zero potentials. -/
theorem c2_forward_backward_consistency_witness :
    ∑ t ∈ Finset.range 1,
      marginalP 1 1 (fun _ _ => 0) (fun _ _ => 0) t 0 = 1 :=
  (c2_forward_backward_consistency 1 1 (fun _ _ => 0) (fun _ _ => 0)
    (by norm_num) (by norm_num)).2.2 0 (by norm_num)

theorem list_range_map_sum {M : Type} [AddCommMonoid M] (f : ℕ → M) :
    ∀ n, ((List.range n).map f).sum = ∑ i ∈ Finset.range n, f i := by
  intro n
  induction n with
  | zero => rfl
  | succ n ih =>
    rw [List.range_succ, List.map_append, List.sum_append, Finset.sum_range_succ, ih]
    simp

theorem count_foldl_append (g : ℕ → List ℕ) (f : ℕ) :
    ∀ (Li : List ℕ) (acc : List ℕ),
      (Li.foldl (fun l i => l ++ g i) acc).count f =
        acc.count f + (Li.map (fun i => (g i).count f)).sum := by
  intro Li
  induction Li with
  | nil => intro acc; simp
  | cons i is ih =>
    intro acc
    rw [List.foldl_cons, ih, List.count_append, List.map_cons, List.sum_cons]
    omega

theorem dictAdd_foldl (m : ℝ) :
    ∀ (L : List ℕ) (d : ℕ → ℝ) (f : ℕ),
      (L.foldl (fun d f' => Function.update d f' (d f' + m)) d) f =
        d f + m * ((L.count f : ℕ) : ℝ) := by
  intro L
  induction L with
  | nil => intro d f; simp
  | cons x xs ih =>
    intro d f
    rw [List.foldl_cons, ih]
    by_cases hfx : f = x
    · subst hfx
      rw [Function.update_same, List.count_cons_self]
      push_cast
      ring
    · rw [Function.update_noteq hfx, List.count_cons_of_ne hfx]

theorem dictTags_foldl (marg : ℕ → ℕ → ℝ) (fc : ℕ → ℕ → List ℕ) (i : ℕ) :
    ∀ (Lt : List ℕ) (d : ℕ → ℝ) (f : ℕ),
      (Lt.foldl (fun d t => (fc i t).foldl
        (fun d f' => Function.update d f' (d f' + marg t i)) d) d) f =
        d f + (Lt.map (fun t => marg t i * ((fc i t).count f : ℕ))).sum := by
  intro Lt
  induction Lt with
  | nil => intro d f; simp
  | cons t ts ih =>
    intro d f
    rw [List.foldl_cons, ih, dictAdd_foldl, List.map_cons, List.sum_cons]
    ring

theorem dictPos_foldl (T : ℕ) (marg : ℕ → ℕ → ℝ) (fc : ℕ → ℕ → List ℕ) :
    ∀ (Li : List ℕ) (d : ℕ → ℝ) (f : ℕ),
      (Li.foldl (fun d i => (List.range T).foldl
        (fun d t => (fc i t).foldl
          (fun d f' => Function.update d f' (d f' + marg t i)) d) d) d) f =
        d f + (Li.map (fun i => ((List.range T).map
          (fun t => marg t i * ((fc i t).count f : ℕ))).sum)).sum := by
  intro Li
  induction Li with
  | nil => intro d f; simp
  | cons i is ih =>
    intro d f
    rw [List.foldl_cons, ih, dictTags_foldl, List.map_cons, List.sum_cons]
    ring

theorem expectedCounts_eq (T N : ℕ) (marg : ℕ → ℕ → ℝ) (fc : ℕ → ℕ → List ℕ)
    (f : ℕ) :
    expectedCounts T N marg fc f =
      ∑ i ∈ Finset.range N, ∑ t ∈ Finset.range T,
        marg t i * ((fc i t).count f : ℕ) := by
  rw [expectedCounts, dictPos_foldl, list_range_map_sum]
  simp only [list_range_map_sum]
  simp

/-- C3: for a labelled sentence whose gold tags all occur in the tag
indexer, the gradient Counter of `compute_gradient` maps each feature id `f`
to the number of occurrences of `f` in the cached feature lists of the gold
tag across positions, minus the sum over positions and tags of the marginal
probability times the number of occurrences of `f` in that (position, tag)
cache list. -/
theorem c3_gradient_observed_minus_expected (tix : Indexer) (tags : List String)
    (trans emis : ℕ → ℕ → ℝ) (fc : ℕ → ℕ → List ℕ)
    (_hgold : ∀ g ∈ tags, g ∈ tix.objs) :
    ∀ f, (compute_gradient tix tags trans emis fc).2 f =
      (∑ i ∈ Finset.range tags.length,
        ((fc i (goldTagIdx tix tags i)).count f : ℕ) : ℕ)
      - ∑ i ∈ Finset.range tags.length, ∑ t ∈ Finset.range tix.objs.length,
          marginalP tix.objs.length tags.length trans emis t i *
            ((fc i t).count f : ℕ) := by
  intro f
  show crfGradient tix tags trans emis fc f = _
  rw [crfGradient]
  rw [expectedCounts_eq]
  have hgoldc : (goldFeatList tags.length (goldTagIdx tix tags) fc).count f =
      ∑ i ∈ Finset.range tags.length, (fc i (goldTagIdx tix tags i)).count f := by
    rw [goldFeatList, count_foldl_append, list_range_map_sum]
    simp
  rw [hgoldc]

/-- C3 witness: the gradient formula at a one-tag indexer, the single gold
tag "O", zero potentials and an empty feature cache. -/
theorem c3_gradient_observed_minus_expected_witness :
    (compute_gradient ⟨["O"]⟩ ["O"] (fun _ _ => 0) (fun _ _ => 0)
      (fun _ _ => [])).2 0 =
      (∑ i ∈ Finset.range (["O"] : List String).length,
        (((fun (_ _ : ℕ) => ([] : List ℕ)) i
          (goldTagIdx ⟨["O"]⟩ ["O"] i)).count 0 : ℕ) : ℕ)
      - ∑ i ∈ Finset.range (["O"] : List String).length,
          ∑ t ∈ Finset.range (Indexer.mk ["O"]).objs.length,
            marginalP (Indexer.mk ["O"]).objs.length (["O"] : List String).length
              (fun _ _ => 0) (fun _ _ => 0) t i *
              (((fun (_ _ : ℕ) => ([] : List ℕ)) i t).count 0 : ℕ) :=
  c3_gradient_observed_minus_expected ⟨["O"]⟩ ["O"] (fun _ _ => 0)
    (fun _ _ => 0) (fun _ _ => []) (by intro g hg; simpa using hg) 0

theorem foldl_preserves {σ δ : Type} (P : σ → Prop) (step : σ → δ → σ)
    (hstep : ∀ s x, P s → P (step s x)) :
    ∀ (l : List δ) (s : σ), P s → P (l.foldl step s) := by
  intro l
  induction l with
  | nil => intro s h; exact h
  | cons x xs ih =>
    intro s h
    rw [List.foldl_cons]
    exact ih _ (hstep s x h)

theorem bump1_ge {f : ℕ → ℚ} (a : ℕ) (h : ∀ r, 1 / 1000 ≤ f r) :
    ∀ r, 1 / 1000 ≤ bump1 f a r := by
  intro r
  rw [bump1]
  split
  · calc (1 / 1000 : ℚ) ≤ f r := h r
      _ ≤ f r + 1 := le_add_of_nonneg_right zero_le_one
  · exact h r

theorem bump2_ge {f : ℕ → ℕ → ℚ} (a b : ℕ) (h : ∀ r k, 1 / 1000 ≤ f r k) :
    ∀ r k, 1 / 1000 ≤ bump2 f a b r k := by
  intro r k
  rw [bump2]
  split
  · calc (1 / 1000 : ℚ) ≤ f r k := h r k
      _ ≤ f r k + 1 := le_add_of_nonneg_right zero_le_one
  · exact h r k

theorem countSentence_preserves (tix wix : Indexer) (cnt : String → ℕ)
    (sent : HmmSentence) (c : HmmCounts) (h : goodCounts c) :
    goodCounts (countSentence tix wix cnt sent c) := by
  rw [countSentence]
  refine foldl_preserves goodCounts _ ?_ (List.range sent.length) c h
  intro c' i hc'
  obtain ⟨h1, h2, h3⟩ := hc'
  split
  · exact ⟨bump1_ge _ h1, h2, bump2_ge _ _ h3⟩
  · exact ⟨h1, bump2_ge _ _ h2, bump2_ge _ _ h3⟩

theorem hmmCounts_good (corpus : List HmmSentence) :
    goodCounts (hmmCounts corpus) := by
  rw [hmmCounts]
  refine foldl_preserves goodCounts _ ?_ corpus _
    ⟨fun _ => le_refl _, fun _ _ => le_refl _, fun _ _ => le_refl _⟩
  intro c sent hc
  exact countSentence_preserves _ _ _ sent c hc

theorem addAndGet_length_le (ix : Indexer) (s : String) :
    ix.objs.length ≤ ((ix.addAndGet s).2).objs.length := by
  rw [Indexer.addAndGet]
  split
  · exact le_refl _
  · rw [List.length_append]
    omega

theorem hmmIndexers_word_length_pos (corpus : List HmmSentence) :
    1 ≤ (hmmIndexers corpus).2.objs.length := by
  rw [hmmIndexers]
  refine foldl_preserves (fun acc : Indexer × Indexer => 1 ≤ acc.2.objs.length)
    _ ?_ corpus (⟨[]⟩, ⟨["UNK"]⟩) (by simp)
  intro acc sent hacc
  show 1 ≤ (sent.foldl
    (fun wix tok => (get_word_index wix (wordCount corpus) tok.1).2) acc.2).objs.length
  refine foldl_preserves (fun wix : Indexer => 1 ≤ wix.objs.length) _ ?_ sent acc.2 hacc
  intro wix tok hw
  rw [get_word_index]
  split
  · exact le_trans hw (addAndGet_length_le wix "UNK")
  · exact le_trans hw (addAndGet_length_le wix tok.1)

/-- C6: for every non-empty training corpus, the trained HMM's tables are
row-normalised in exact arithmetic: every row of exp(transition_log_probs)
sums to 1 over the tag set (each row a conditional distribution given the
previous tag), every row of exp(emission_log_probs) sums to 1 over the word
vocabulary (conditioned on the tag), and — thanks to the 0.001 additive
smoothing — no entry has zero probability. -/
theorem c6_hmm_rows_normalised (corpus : List HmmSentence)
    (_hne : corpus ≠ []) :
    (∀ r, r < (hmmIndexers corpus).1.objs.length →
      (∑ c ∈ Finset.range (hmmIndexers corpus).1.objs.length,
        Real.exp (hmmTransLog corpus r c)) = 1 ∧
      ∀ c, c < (hmmIndexers corpus).1.objs.length →
        0 < hmmTransProb corpus r c) ∧
    (∀ r, r < (hmmIndexers corpus).1.objs.length →
      (∑ v ∈ Finset.range (hmmIndexers corpus).2.objs.length,
        Real.exp (hmmEmisLog corpus r v)) = 1 ∧
      ∀ v, v < (hmmIndexers corpus).2.objs.length →
        0 < hmmEmisProb corpus r v) := by
  obtain ⟨-, htr, hem⟩ := hmmCounts_good corpus
  have hcellpos_tr : ∀ r k, 0 < (hmmCounts corpus).trans r k := fun r k =>
    lt_of_lt_of_le (by norm_num) (htr r k)
  have hcellpos_em : ∀ r v, 0 < (hmmCounts corpus).emis r v := fun r v =>
    lt_of_lt_of_le (by norm_num) (hem r v)
  constructor
  · intro r hr
    have hTpos : 0 < (hmmIndexers corpus).1.objs.length := by omega
    have hSpos : 0 < ∑ j ∈ Finset.range (hmmIndexers corpus).1.objs.length,
        (hmmCounts corpus).trans r j := by
      refine Finset.sum_pos (fun j _ => hcellpos_tr r j) ?_
      exact Finset.nonempty_range_iff.mpr (by omega)
    have hppos : ∀ c, 0 < hmmTransProb corpus r c := by
      intro c
      rw [hmmTransProb]
      exact div_pos (hcellpos_tr r c) hSpos
    refine ⟨?_, fun c _ => hppos c⟩
    have hexp : ∀ c, Real.exp (hmmTransLog corpus r c) =
        ((hmmTransProb corpus r c : ℚ) : ℝ) := by
      intro c
      rw [hmmTransLog, Real.exp_log]
      exact_mod_cast hppos c
    calc ∑ c ∈ Finset.range (hmmIndexers corpus).1.objs.length,
          Real.exp (hmmTransLog corpus r c)
        = ∑ c ∈ Finset.range (hmmIndexers corpus).1.objs.length,
            ((hmmTransProb corpus r c : ℚ) : ℝ) :=
          Finset.sum_congr rfl (fun c _ => hexp c)
      _ = (((∑ c ∈ Finset.range (hmmIndexers corpus).1.objs.length,
            hmmTransProb corpus r c : ℚ)) : ℝ) := by push_cast; ring
      _ = 1 := by
          have hq : (∑ c ∈ Finset.range (hmmIndexers corpus).1.objs.length,
              hmmTransProb corpus r c : ℚ) = 1 := by
            simp only [hmmTransProb]
            rw [← Finset.sum_div]
            exact div_self (ne_of_gt hSpos)
          rw [hq]
          norm_num
  · intro r hr
    have hVpos : 0 < (hmmIndexers corpus).2.objs.length :=
      hmmIndexers_word_length_pos corpus
    have hSpos : 0 < ∑ j ∈ Finset.range (hmmIndexers corpus).2.objs.length,
        (hmmCounts corpus).emis r j := by
      refine Finset.sum_pos (fun j _ => hcellpos_em r j) ?_
      exact Finset.nonempty_range_iff.mpr (by omega)
    have hppos : ∀ v, 0 < hmmEmisProb corpus r v := by
      intro v
      rw [hmmEmisProb]
      exact div_pos (hcellpos_em r v) hSpos
    refine ⟨?_, fun v _ => hppos v⟩
    have hexp : ∀ v, Real.exp (hmmEmisLog corpus r v) =
        ((hmmEmisProb corpus r v : ℚ) : ℝ) := by
      intro v
      rw [hmmEmisLog, Real.exp_log]
      exact_mod_cast hppos v
    calc ∑ v ∈ Finset.range (hmmIndexers corpus).2.objs.length,
          Real.exp (hmmEmisLog corpus r v)
        = ∑ v ∈ Finset.range (hmmIndexers corpus).2.objs.length,
            ((hmmEmisProb corpus r v : ℚ) : ℝ) :=
          Finset.sum_congr rfl (fun v _ => hexp v)
      _ = (((∑ v ∈ Finset.range (hmmIndexers corpus).2.objs.length,
            hmmEmisProb corpus r v : ℚ)) : ℝ) := by push_cast; ring
      _ = 1 := by
          have hq : (∑ v ∈ Finset.range (hmmIndexers corpus).2.objs.length,
              hmmEmisProb corpus r v : ℚ) = 1 := by
            simp only [hmmEmisProb]
            rw [← Finset.sum_div]
            exact div_self (ne_of_gt hSpos)
          rw [hq]
          norm_num

/-- C6 witness: the row-normalisation theorem at the one-sentence corpus
[("a", "O")]. -/
theorem c6_hmm_rows_normalised_witness :
    ∑ c ∈ Finset.range (hmmIndexers [[("a", "O")]]).1.objs.length,
      Real.exp (hmmTransLog [[("a", "O")]] 0 c) = 1 :=
  ((c6_hmm_rows_normalised [[("a", "O")]] (by decide)).1 0 (by decide)).1
